import Mathlib

/-! gorm-sqlcommenter-plugin: tag sets, merge and comment rendering

Shallow embedding of `clause.go` and `plugin.go`.

* Go strings are byte sequences (`GoString`), compared byte-wise.
* A Go `map[string]string` is `GoMap`: either the nil map or a duplicate-free
  association list whose order stands for one (arbitrary) iteration order.
* `clause.Builder` is the text written so far; `WriteString` appends.
* `*clause.Clause` and `*gorm.DB` are passed and returned explicitly.
* Where the identity of map objects matters, maps live in a `Heap` and tag sets
  hold references (`SqlCommentRef`).
* The statement build of the host framework is modelled separately (`Statement`).
-/

namespace Sqlcommenter

/-! ## Go strings -/

/-- One byte of a Go string. -/
abbrev Byte := Fin 256

/-- Go `string`: an immutable sequence of bytes. -/
abbrev GoString := List Byte

/-- The bytes of an ASCII literal (used to write the constants of the source). -/
def lit (s : String) : GoString :=
  s.toList.map (fun c => Fin.ofNat c.toNat)

/-- Go's `a < b` on strings: byte-wise lexicographic comparison. -/
def GoString.less : GoString → GoString → Bool
  | [], [] => false
  | [], _ :: _ => true
  | _ :: _, [] => false
  | a :: as, b :: bs => if a < b then true else if b < a then false else GoString.less as bs

/-! ## Standard library: `sort.Strings` and `url.PathEscape` -/

/-- Place `x` into an ascending list, before the first element that is not below it. -/
def orderedInsertString (x : GoString) : List GoString → List GoString
  | [] => [x]
  | y :: ys => if GoString.less y x then y :: orderedInsertString x ys else x :: y :: ys

/-- Go `sort.Strings`: sorts a slice of strings in increasing order of `<`. -/
def sortStrings : List GoString → List GoString
  | [] => []
  | x :: xs => orderedInsertString x (sortStrings xs)

/-- Go `net/url` `shouldEscape(c, encodePathSegment)`: letters, digits and the
marks `- _ . ~` are never escaped; of the reserved characters
`$ & + , / : ; = ? @` a path segment escapes only `/ ; , ?`; everything
else is escaped. -/
def shouldEscape (c : Byte) : Bool :=
  if (97 ≤ c.val ∧ c.val ≤ 122) ∨ (65 ≤ c.val ∧ c.val ≤ 90) ∨ (48 ≤ c.val ∧ c.val ≤ 57) then
    false
  else if c.val = 45 ∨ c.val = 95 ∨ c.val = 46 ∨ c.val = 126 then
    false
  else if c.val = 36 ∨ c.val = 38 ∨ c.val = 43 ∨ c.val = 44 ∨ c.val = 47 ∨ c.val = 58 ∨
      c.val = 59 ∨ c.val = 61 ∨ c.val = 63 ∨ c.val = 64 then
    decide (c.val = 47 ∨ c.val = 59 ∨ c.val = 44 ∨ c.val = 63)
  else
    true

/-- Go `net/url` `upperhex = "0123456789ABCDEF"`, indexed by a nibble. -/
def upperhex (n : Nat) : Byte :=
  if n < 10 then Fin.ofNat (48 + n) else Fin.ofNat (55 + n)

/-- Go `net/url` `escape(s, encodePathSegment)`: a first pass counts the bytes
to escape and returns `s` itself when there are none; otherwise a second pass
copies each byte or writes `%` and its two upper-case hex digits
(`upperhex[c>>4]`, `upperhex[c&15]`). -/
def escape (s : GoString) : GoString :=
  let hexCount := s.foldl (fun n c => if shouldEscape c then n + 1 else n) 0
  if hexCount = 0 then s
  else
    s.foldl (fun t c =>
      if shouldEscape c then t ++ [37, upperhex (c.val / 16), upperhex (c.val % 16)]
      else t ++ [c]) []

/-- Go `url.PathEscape`. -/
def PathEscape (s : GoString) : GoString := escape s

/-! ## Go maps -/

/-- The entries of a non-nil `map[string]string`. -/
abbrev Entries := AList (fun _ : GoString => GoString)

/-- Go `map[string]string`: `none` is the nil map; `some es` holds the entries
`es`, whose list order stands for the order in which `range` visits them. -/
abbrev GoMap := Option Entries

namespace GoMap

/-- Go `len(m)`; the nil map has length 0. -/
def len : GoMap → Nat
  | none => 0
  | some es => es.entries.length

/-- The key/value pairs visited by `for key, value := range m`; none for the nil map. -/
def range : GoMap → List (GoString × GoString)
  | none => []
  | some es => es.entries.map (fun e => (e.1, e.2))

/-- Go `v, ok := m[key]`. -/
def lookup (m : GoMap) (key : GoString) : Option GoString :=
  match m with
  | none => none
  | some es => es.lookup key

/-- Go `m[key]`: the zero value `""` when the key is absent. -/
def index (m : GoMap) (key : GoString) : GoString :=
  (m.lookup key).getD []

/-- The keys of the map, in iteration order. -/
def keys (m : GoMap) : List GoString :=
  m.range.map Prod.fst

/-- A map literal `map[string]string{k1: v1, ...}`. -/
def ofList (kvs : List (GoString × GoString)) : GoMap :=
  some (kvs.foldl (fun es kv => es.insert kv.1 kv.2) ∅)

end GoMap

/-! ## `clause.go` -/

/-- Go `clause.Builder`, reduced to the text written so far. -/
abbrev Builder := GoString

/-- Go `builder.WriteString(s)`. -/
def Builder.WriteString (builder : Builder) (s : GoString) : Builder :=
  builder ++ s

/-- Go `type SqlComment struct { Tags map[string]string }`. -/
structure SqlComment where
  Tags : GoMap
  deriving DecidableEq

/-- Go `escapeKey`. -/
def escapeKey (key : GoString) : GoString :=
  PathEscape key

/-- Go `escapeValue`. -/
def escapeValue (value : GoString) : GoString :=
  lit "'" ++ escapeKey value ++ lit "'"

/-- Go `SqlComment.Build`. -/
def SqlComment.Build (sqlComment : SqlComment) (builder : Builder) : Builder :=
  if sqlComment.Tags.len > 0 then
    let builder := builder.WriteString (lit "/*")
    let keys := sqlComment.Tags.range.foldl (fun keys kv => keys ++ [kv.1]) []
    let keys := sortStrings keys
    let st := keys.foldl (fun (st : Builder × Bool) key =>
      let builder := if !st.2 then st.1.WriteString (lit ",") else st.1
      let builder := builder.WriteString (escapeKey key)
      let builder := builder.WriteString (lit "=")
      let builder := builder.WriteString (escapeValue (sqlComment.Tags.index key))
      (builder, false)) (builder, true)
    st.1.WriteString (lit "*/")
  else
    builder

/-- Go `NewTag`. -/
def NewTag (key : GoString) (value : GoString) : SqlComment :=
  { Tags := GoMap.ofList [(key, value)] }

/-- Go `NewTags`. -/
def NewTags (tags : GoMap) : SqlComment :=
  { Tags := tags }

/-- Go `clause.Expression` (an interface value): nil, a `SqlComment`, or an
expression of some other dynamic type (identified by a tag). -/
inductive Expression where
  | nil
  | sqlComment (s : SqlComment)
  | other (id : Nat)
  deriving DecidableEq

/-- Go `clause.Clause` of gorm (its `Builder` function field is left out). -/
structure Clause where
  Name : GoString
  BeforeExpression : Expression
  AfterNameExpression : Expression
  AfterExpression : Expression
  Expression : Expression
  deriving DecidableEq

/-- Go type assertion `s, ok := e.(SqlComment)`. -/
def Expression.asSqlComment : Expression → Option SqlComment
  | .sqlComment s => some s
  | _ => none

/-- Go `SqlComment.MergeClause`; the clause behind the pointer is returned. -/
def SqlComment.MergeClause (sqlComment : SqlComment) (mergeClause : Clause) : Clause :=
  match mergeClause.Expression.asSqlComment with
  | some s =>
    let tags : Entries := ∅
    let tags := s.Tags.range.foldl (fun tags kv => tags.insert kv.1 kv.2) tags
    let tags := sqlComment.Tags.range.foldl (fun tags kv => tags.insert kv.1 kv.2) tags
    let sqlComment := { sqlComment with Tags := some tags }
    { mergeClause with Expression := .sqlComment sqlComment }
  | none => { mergeClause with Expression := .sqlComment sqlComment }

/-! ## Maps as references

Go map values are references to map objects. To speak of what `MergeClause`
writes, the map objects are kept in a heap and tag sets hold addresses. -/

/-- The heap of map objects; the address of an object is its position. -/
abbrev Heap := List Entries

/-- A Go map value as a reference: `none` is nil, `some p` the object at address `p`. -/
abbrev MapRef := Option Nat

/-- The map a reference stands for in a heap. -/
def Heap.deref (heap : Heap) : MapRef → GoMap
  | none => none
  | some p => heap[p]?

/-- A reference is nil or points at an object of the heap. -/
def Heap.valid (heap : Heap) : MapRef → Bool
  | none => true
  | some p => decide (p < heap.length)

/-- Go `make(map[string]string, n)`: a new empty map object at a fresh address. -/
def Heap.make (heap : Heap) : Heap × Nat :=
  (heap ++ [∅], heap.length)

/-- Go `m[key] = value` on the map object at address `p`. -/
def Heap.store (heap : Heap) (p : Nat) (key value : GoString) : Heap :=
  match heap[p]? with
  | some es => heap.set p (es.insert key value)
  | none => heap

/-- Go `SqlComment`, its `Tags` field a reference. -/
structure SqlCommentRef where
  Tags : MapRef
  deriving DecidableEq

/-- Go `clause.Expression`, `SqlComment` values holding references. -/
inductive ExpressionRef where
  | nil
  | sqlComment (s : SqlCommentRef)
  | other (id : Nat)
  deriving DecidableEq

/-- Go `clause.Clause`, its expressions holding references; the `Builder`
function field is kept by identity (`none` is nil). -/
structure ClauseRef where
  Name : GoString
  BeforeExpression : ExpressionRef
  AfterNameExpression : ExpressionRef
  AfterExpression : ExpressionRef
  Expression : ExpressionRef
  Builder : Option Nat
  deriving DecidableEq

/-- Go type assertion `s, ok := e.(SqlComment)` on expressions holding references. -/
def ExpressionRef.asSqlComment : ExpressionRef → Option SqlCommentRef
  | .sqlComment s => some s
  | _ => none

/-- Go `SqlComment.MergeClause` on map references: the heap after the call and
the clause behind the pointer. -/
def SqlCommentRef.MergeClause (heap : Heap) (sqlComment : SqlCommentRef)
    (mergeClause : ClauseRef) : Heap × ClauseRef :=
  match mergeClause.Expression.asSqlComment with
  | some s =>
    let made := heap.make
    let tags := made.2
    let heap := (made.1.deref s.Tags).range.foldl
      (fun heap kv => heap.store tags kv.1 kv.2) made.1
    let heap := (heap.deref sqlComment.Tags).range.foldl
      (fun heap kv => heap.store tags kv.1 kv.2) heap
    let sqlComment := { sqlComment with Tags := some tags }
    (heap, { mergeClause with Expression := .sqlComment sqlComment })
  | none => (heap, { mergeClause with Expression := .sqlComment sqlComment })

/-! ## `plugin.go` -/

/-- Go `const GormClauseName`. -/
def GormClauseName : GoString := lit "plugin:sql-commenter"

/-- Go `SqlComment.Name`. -/
def SqlComment.Name (_sqlComment : SqlComment) : GoString :=
  GormClauseName

/-- Go `clause.ClauseBuilder` of gorm, `func(clause.Clause, clause.Builder)`. -/
abbrev ClauseBuilder := Clause → Builder → Builder

/-- Go `processor` of gorm, reduced to its `Clauses` field. -/
structure processor where
  Clauses : List GoString

/-- Go `callbacks` of gorm: the processors returned by `db.Callback().Query()`,
`.Create()`, `.Update()`, `.Delete()`, `.Raw()` and `.Row()`. -/
structure callbacks where
  Query : processor
  Create : processor
  Update : processor
  Delete : processor
  Raw : processor
  Row : processor

/-- Go `gorm.DB`, reduced to what `Initialize` touches: the `ClauseBuilders` map
(a builder per clause name, `none` when the name has no entry) and the callbacks. -/
structure DB where
  ClauseBuilders : GoString → Option ClauseBuilder
  Callback : callbacks

/-- Go `type SqlCommenterPlugin struct{}`. -/
structure SqlCommenterPlugin where

/-- Go `SqlCommenterPlugin.Name`. -/
def SqlCommenterPlugin.Name (_e : SqlCommenterPlugin) : GoString :=
  lit "SqlCommenterPlugin"

/-- Go `SqlCommenterPlugin.Initialize`: the updated `DB` behind the pointer and
the returned error (`none` is nil). -/
def SqlCommenterPlugin.Initialize (_e : SqlCommenterPlugin) (db : DB) : DB × Option GoString :=
  let db : DB :=
    { db with
      ClauseBuilders := fun name =>
        if name = GormClauseName then
          some (fun c builder =>
            match c.Expression.asSqlComment with
            | some sqlComment => sqlComment.Build builder
            | none => builder)
        else db.ClauseBuilders name }
  let db : DB :=
    { db with
      Callback := { db.Callback with
        Query := { Clauses := db.Callback.Query.Clauses ++ [GormClauseName] } } }
  let db : DB :=
    { db with
      Callback := { db.Callback with
        Create := { Clauses := db.Callback.Create.Clauses ++ [GormClauseName] } } }
  let db : DB :=
    { db with
      Callback := { db.Callback with
        Update := { Clauses := db.Callback.Update.Clauses ++ [GormClauseName] } } }
  let db : DB :=
    { db with
      Callback := { db.Callback with
        Delete := { Clauses := db.Callback.Delete.Clauses ++ [GormClauseName] } } }
  let db : DB :=
    { db with
      Callback := { db.Callback with
        Raw := { Clauses := db.Callback.Raw.Clauses ++ [GormClauseName] } } }
  let db : DB :=
    { db with
      Callback := { db.Callback with
        Row := { Clauses := db.Callback.Row.Clauses ++ [GormClauseName] } } }
  (db, none)

/-- Go `New`. -/
def New : SqlCommenterPlugin := {}

/-! ## Host framework -/

/-- Modelled from the spec: the statement of the host framework (gorm
`Statement`, not part of the sources), reduced to the clauses attached to it by
name; its SQL text is what the statement build writes. -/
structure Statement where
  Clauses : GoString → Option Clause

/-- The tag set a statement carries: the `SqlComment` held by the clause stored
under the plugin's clause name, if there is one. -/
def Statement.comment (stmt : Statement) : Option SqlComment :=
  (stmt.Clauses GormClauseName).bind (fun c => c.Expression.asSqlComment)

/-- Modelled from the spec: attaching a tag set to a statement (gorm
`Statement.AddClause`, not part of the sources): the clause stored under the
name of the tag set, or a zero clause, gets that name, is handed to
`MergeClause` and is stored back. -/
def Statement.AddClause (stmt : Statement) (v : SqlComment) : Statement :=
  let name := v.Name
  let c := (stmt.Clauses name).getD (Clause.mk [] .nil .nil .nil .nil)
  let c := { c with Name := name }
  let c := v.MergeClause c
  { stmt with Clauses := fun n => if n = name then some c else stmt.Clauses n }

/-- Modelled from the spec: one round of the statement build of the host
framework (the loop body of gorm `Statement.Build`, not part of the sources): a
name with a clause attached writes a single space unless it is the first one
written, then its clause text, by the builder registered for the name or else by
the default builder of the framework; a name without a clause writes nothing. -/
def Statement.buildStep (db : DB) (defaultBuild : ClauseBuilder) (stmt : Statement)
    (st : Builder × Bool) (name : GoString) : Builder × Bool :=
  match stmt.Clauses name with
  | some c =>
    let sql := if st.2 then st.1.WriteString (lit " ") else st.1
    match db.ClauseBuilders name with
    | some b => (b c sql, true)
    | none => (defaultBuild c sql, true)
  | none => st

/-- Modelled from the spec: statement build of the host framework (gorm
`Statement.Build`, not part of the sources): the clause names of the statement
kind are visited in order, starting with nothing written. -/
def Statement.Build (db : DB) (defaultBuild : ClauseBuilder) (stmt : Statement)
    (clauses : List GoString) : Builder :=
  (clauses.foldl (Statement.buildStep db defaultBuild stmt) ([], false)).1

/-- The statement kinds for which the plugin registers its clause. -/
inductive StatementKind where
  | Query | Create | Update | Delete | Raw | Row
  deriving DecidableEq

/-- The processor of a statement kind. -/
def callbacks.processorOf (cs : callbacks) : StatementKind → processor
  | .Query => cs.Query
  | .Create => cs.Create
  | .Update => cs.Update
  | .Delete => cs.Delete
  | .Raw => cs.Raw
  | .Row => cs.Row

/-- Example host: a database handle whose query statements are built from the
clause names `SELECT` and `FROM`, with no clause builder registered. -/
def exampleDB : DB :=
  { ClauseBuilders := fun _ => none
    Callback := callbacks.mk ⟨[lit "SELECT", lit "FROM"]⟩ ⟨[]⟩ ⟨[]⟩ ⟨[]⟩ ⟨[]⟩ ⟨[]⟩ }

/-- Example host: a default clause builder that writes the clause name and then
` *` for the expression tagged 1 and the quoted table name `test` for the one
tagged 2. -/
def exampleDefaultBuild : ClauseBuilder := fun c builder =>
  match c.Expression with
  | .other 1 => builder ++ c.Name ++ lit " *"
  | .other 2 => builder ++ c.Name ++ lit " `test`"
  | _ => builder ++ c.Name

/-- Example host: the statement of a scan of table `test`, holding a `SELECT`
and a `FROM` clause. -/
def exampleStatement : Statement :=
  { Clauses := fun n =>
      if n = lit "SELECT" then some (Clause.mk (lit "SELECT") .nil .nil .nil (.other 1))
      else if n = lit "FROM" then some (Clause.mk (lit "FROM") .nil .nil .nil (.other 2))
      else none }

/-- Example heap: the map `{"application": "value"}` at address 0 and the map
`{"hello": "world", "application": "value2"}` at address 1. -/
def exampleHeap : Heap :=
  [(∅ : Entries).insert (lit "application") (lit "value"),
    ((∅ : Entries).insert (lit "hello") (lit "world")).insert (lit "application") (lit "value2")]

/-! ## Specification-side definitions -/

/-- Spec side: the bytes path-segment encoding copies unchanged: ASCII letters,
ASCII digits and `- _ . ~ $ & + = : @`. -/
def keptBytes : GoString :=
  lit "ABCDEFGHIJKLMNOPQRSTUVWXYZabcdefghijklmnopqrstuvwxyz0123456789-_.~$&+=:@"

/-- Spec side: the upper-case hexadecimal digits. -/
def hexDigits : GoString := lit "0123456789ABCDEF"

/-- Spec side: a kept byte is copied; any other byte becomes `%` followed by
its value as two upper-case hexadecimal digits. -/
def pctEncodeByte (c : Byte) : GoString :=
  if c ∈ keptBytes then [c]
  else [37, hexDigits.getD (c.val / 16) 0, hexDigits.getD (c.val % 16) 0]

/-- Spec side: byte-by-byte path-segment percent-encoding. -/
def pctEncode (s : GoString) : GoString :=
  s.flatMap pctEncodeByte

/-- Spec side: one rendered entry `escapedKey='escapedValue'`. -/
def renderEntry (kv : GoString × GoString) : GoString :=
  escapeKey kv.1 ++ lit "=" ++ lit "'" ++ escapeKey kv.2 ++ lit "'"

/-- Spec side: the comment for the entries `kvs` taken in the given order:
`/*`, the entries joined by single commas, `*/`. -/
def renderEntries (kvs : List (GoString × GoString)) : GoString :=
  lit "/*" ++ (lit ",").intercalate (kvs.map renderEntry) ++ lit "*/"

/-- Spec side: the entries of a tag set in ascending byte-wise order of their keys. -/
def sortedEntries (m : GoMap) : List (GoString × GoString) :=
  (sortStrings m.keys).map (fun k => (k, m.index k))

/-- Spec side: `render` of the specification: nothing for a tag set without
entries, otherwise the entries sorted by key, joined by commas, inside `/*` and `*/`. -/
def render (m : GoMap) : GoString :=
  if m.len = 0 then [] else renderEntries (sortedEntries m)

/-- Spec side: the key texts of a rendered comment, read left to right: the
text between `/*` and `*/` is split at its commas and each entry is cut before
its `='`. The empty comment has no keys. -/
def commentKeys (comment : GoString) : List GoString :=
  if comment = [] then []
  else (List.splitOn 44 ((comment.drop 2).dropLast.dropLast)).map
    (fun entry => (entry.takeWhile (fun c => decide (c ≠ 39))).dropLast)

/-- Ascending for `sort.Strings`: no later element is below an earlier one. -/
def Ascending (l : List GoString) : Prop :=
  l.Pairwise (fun a b => GoString.less b a = false)

/-- Strictly ascending in the byte-wise order. -/
def StrictAscending (l : List GoString) : Prop :=
  l.Pairwise (fun a b => GoString.less a b = true)

/-- In `l ++ "*/"`, the text `*/` starts at position `i` only at the end of `l`. -/
def ClosesOnlyAtEnd (l : GoString) : Prop :=
  ∀ i, ((l ++ lit "*/").drop i).take 2 = lit "*/" ↔ i = l.length

/-- Spec side: `merge(existing, incoming)` as the expression that
`incoming.MergeClause` leaves in the clause `c` when `c` held `existing`. -/
def mergeInto (c : Clause) (existing incoming : SqlComment) : Expression :=
  (incoming.MergeClause { c with Expression := .sqlComment existing }).Expression

/-! ## Byte-wise order and `sort.Strings` -/

theorem less_irrefl (a : GoString) : GoString.less a a = false := by
  induction a with
  | nil => rfl
  | cons x xs ih => simp [GoString.less, ih]

theorem less_trans : ∀ (a b c : GoString),
    GoString.less a b = true → GoString.less b c = true → GoString.less a c = true
  | [], [], _, h, _ => by simp [GoString.less] at h
  | [], _ :: _, [], _, h => by simp [GoString.less] at h
  | [], _ :: _, _ :: _, _, _ => by simp [GoString.less]
  | _ :: _, [], _, h, _ => by simp [GoString.less] at h
  | _ :: _, _ :: _, [], _, h => by simp [GoString.less] at h
  | x :: xs, y :: ys, z :: zs, h1, h2 => by
    simp only [GoString.less] at h1 h2 ⊢
    by_cases hxy : x < y
    · by_cases hyz : y < z
      · simp [lt_trans hxy hyz]
      · simp only [hyz, if_false] at h2
        by_cases hzy : z < y
        · simp [hzy] at h2
        · have : y = z := le_antisymm (not_lt.mp hzy) (not_lt.mp hyz)
          subst this
          simp [hxy]
    · simp only [hxy, if_false] at h1
      by_cases hyx : y < x
      · simp [hyx] at h1
      · have : x = y := le_antisymm (not_lt.mp hyx) (not_lt.mp hxy)
        subst this
        simp only [hyx, if_false] at h1
        by_cases hxz : x < z
        · simp [hxz]
        · simp only [hxz, if_false] at h2 ⊢
          by_cases hzx : z < x
          · simp [hzx] at h2
          · simp only [hzx, if_false] at h2 ⊢
            exact less_trans xs ys zs h1 h2

theorem less_connex : ∀ (a b : GoString),
    GoString.less a b = false → GoString.less b a = false → a = b
  | [], [], _, _ => rfl
  | [], _ :: _, h, _ => by simp [GoString.less] at h
  | _ :: _, [], _, h => by simp [GoString.less] at h
  | x :: xs, y :: ys, h1, h2 => by
    simp only [GoString.less] at h1 h2
    by_cases hxy : x < y
    · simp [hxy] at h1
    · by_cases hyx : y < x
      · simp [hyx] at h2
      · have : x = y := le_antisymm (not_lt.mp hyx) (not_lt.mp hxy)
        subst this
        simp only [hxy, if_false] at h1 h2
        rw [less_connex xs ys h1 h2]

theorem less_asymm (a b : GoString) (h : GoString.less a b = true) :
    GoString.less b a = false := by
  cases hba : GoString.less b a with
  | false => rfl
  | true =>
    have := less_trans a b a h hba
    rw [less_irrefl] at this
    exact absurd this (by simp)

theorem orderedInsertString_perm (x : GoString) (l : List GoString) :
    (orderedInsertString x l).Perm (x :: l) := by
  induction l with
  | nil => exact List.Perm.refl _
  | cons y ys ih =>
    unfold orderedInsertString
    split
    · exact (List.Perm.cons y ih).trans (List.Perm.swap x y ys)
    · exact List.Perm.refl _

theorem sortStrings_perm (l : List GoString) : (sortStrings l).Perm l := by
  induction l with
  | nil => exact List.Perm.refl _
  | cons x xs ih =>
    exact (orderedInsertString_perm x (sortStrings xs)).trans (List.Perm.cons x ih)

theorem orderedInsertString_ascending (x : GoString) (l : List GoString)
    (h : Ascending l) : Ascending (orderedInsertString x l) := by
  induction l with
  | nil => simp [orderedInsertString, Ascending]
  | cons y ys ih =>
    unfold Ascending at h ⊢
    rw [List.pairwise_cons] at h
    unfold orderedInsertString
    by_cases hyx : GoString.less y x = true
    · simp only [hyx, if_true, List.pairwise_cons]
      refine ⟨?_, ih h.2⟩
      intro z hz
      rcases List.mem_cons.mp ((orderedInsertString_perm x ys).mem_iff.mp hz) with hzx | hzy
      · subst hzx
        exact less_asymm _ _ hyx
      · exact h.1 z hzy
    · have hyx' : GoString.less y x = false := by simpa using hyx
      simp only [hyx', Bool.false_eq_true, if_false]
      rw [List.pairwise_cons]
      refine ⟨?_, List.pairwise_cons.mpr h⟩
      intro z hz
      rcases List.mem_cons.mp hz with hzy | hzy
      · subst hzy
        simpa using hyx'
      · have h1 := h.1 z hzy
        cases hzx : GoString.less z x with
        | false => rfl
        | true =>
          cases hyz : GoString.less y z with
          | true => exact absurd (less_trans _ _ _ hyz hzx) (by simp [hyx'])
          | false =>
            have : y = z := less_connex y z hyz h1
            subst this
            exact absurd hzx (by simp [hyx'])

theorem sortStrings_ascending (l : List GoString) : Ascending (sortStrings l) := by
  induction l with
  | nil => simp [sortStrings, Ascending]
  | cons x xs ih => exact orderedInsertString_ascending x _ ih

theorem sortStrings_strict (l : List GoString) (h : l.Nodup) :
    StrictAscending (sortStrings l) := by
  have hnd : (sortStrings l).Nodup := (sortStrings_perm l).nodup_iff.mpr h
  have hasc := sortStrings_ascending l
  unfold StrictAscending
  unfold Ascending at hasc
  refine (hasc.and hnd).imp ?_
  intro a b hab
  cases hlt : GoString.less a b with
  | true => rfl
  | false => exact absurd (less_connex a b hlt hab.1) hab.2

theorem strictAscending_nodup (l : List GoString) (h : StrictAscending l) : l.Nodup := by
  unfold StrictAscending at h
  refine h.imp ?_
  intro a b hab heq
  subst heq
  rw [less_irrefl] at hab
  exact absurd hab (by simp)

/-- A strictly ascending list is determined by its members. -/
theorem strictAscending_unique : ∀ (l₁ l₂ : List GoString),
    StrictAscending l₁ → StrictAscending l₂ → (∀ k, k ∈ l₁ ↔ k ∈ l₂) → l₁ = l₂
  | [], [], _, _, _ => rfl
  | [], y :: ys, _, _, h => by simpa using (h y).mpr (List.mem_cons_self _ _)
  | x :: xs, [], _, _, h => by simpa using (h x).mp (List.mem_cons_self _ _)
  | x :: xs, y :: ys, h1, h2, h => by
    unfold StrictAscending at h1 h2
    rw [List.pairwise_cons] at h1 h2
    have hxy : x = y := by
      rcases List.mem_cons.mp ((h x).mp (List.mem_cons_self _ _)) with e | hx
      · exact e
      · rcases List.mem_cons.mp ((h y).mpr (List.mem_cons_self _ _)) with e | hy
        · exact e.symm
        · have a := h2.1 x hx
          have b := h1.1 y hy
          rw [less_asymm _ _ a] at b
          exact absurd b (by simp)
    subst hxy
    have hx1 : x ∉ xs := fun hm => by
      have := h1.1 x hm
      rw [less_irrefl] at this
      exact absurd this (by simp)
    have hx2 : x ∉ ys := fun hm => by
      have := h2.1 x hm
      rw [less_irrefl] at this
      exact absurd this (by simp)
    have : xs = ys := strictAscending_unique xs ys h1.2 h2.2 (fun k => by
      constructor
      · intro hk
        rcases List.mem_cons.mp ((h k).mp (List.mem_cons_of_mem _ hk)) with e | hk2
        · subst e; exact absurd hk hx1
        · exact hk2
      · intro hk
        rcases List.mem_cons.mp ((h k).mpr (List.mem_cons_of_mem _ hk)) with e | hk2
        · subst e; exact absurd hk hx2
        · exact hk2)
    rw [this]

/-! ## `url.PathEscape` is byte-by-byte percent-encoding -/

theorem foldl_append_eq_flatMap {α β : Type} (g : α → List β) (s : List α) (t : List β) :
    s.foldl (fun t c => t ++ g c) t = t ++ s.flatMap g := by
  induction s generalizing t with
  | nil => simp
  | cons x xs ih => simp [List.foldl_cons, ih, List.flatMap_cons, List.append_assoc]

theorem upperhex_eq_hexDigits : ∀ n, n < 16 → upperhex n = hexDigits.getD n 0 := by
  decide

theorem shouldEscape_upperhex : ∀ n, n < 16 → shouldEscape (upperhex n) = false := by
  decide

set_option maxRecDepth 1000000 in
theorem mem_keptBytes_ofNat : ∀ n, n < 256 →
    decide ((Fin.ofNat n : Byte) ∈ keptBytes) = !shouldEscape (Fin.ofNat n) := by
  decide

theorem ofNat_val (c : Byte) : (Fin.ofNat c.val : Byte) = c :=
  Fin.ext (Nat.mod_eq_of_lt c.isLt)

/-- The kept bytes of the specification are exactly the bytes `shouldEscape` lets through. -/
theorem mem_keptBytes_iff (c : Byte) : c ∈ keptBytes ↔ shouldEscape c = false := by
  have h := mem_keptBytes_ofNat c.val c.isLt
  rw [ofNat_val] at h
  cases hs : shouldEscape c <;> simp [hs] at h ⊢ <;> exact h

theorem escapeStep_eq_pctEncodeByte (c : Byte) :
    (if shouldEscape c then [37, upperhex (c.val / 16), upperhex (c.val % 16)] else [c])
      = pctEncodeByte c := by
  unfold pctEncodeByte
  have h1 : c.val / 16 < 16 := by have := c.isLt; omega
  have h2 : c.val % 16 < 16 := Nat.mod_lt _ (by decide)
  cases hs : shouldEscape c with
  | false =>
    have : c ∈ keptBytes := (mem_keptBytes_iff c).mpr hs
    simp [this]
  | true =>
    have : c ∉ keptBytes := fun hm => by
      rw [(mem_keptBytes_iff c).mp hm] at hs
      exact absurd hs (by simp)
    simp [this, upperhex_eq_hexDigits _ h1, upperhex_eq_hexDigits _ h2]

theorem shouldEscape_false_pctEncodeByte (c : Byte) (h : shouldEscape c = false) :
    pctEncodeByte c = [c] := by
  rw [← escapeStep_eq_pctEncodeByte, h]
  rfl

theorem hexCount_eq_zero (s : GoString) (n : Nat) :
    s.foldl (fun n c => if shouldEscape c then n + 1 else n) n = 0 →
      n = 0 ∧ ∀ c ∈ s, shouldEscape c = false := by
  induction s generalizing n with
  | nil => intro h; exact ⟨h, by simp⟩
  | cons x xs ih =>
    intro h
    rw [List.foldl_cons] at h
    have := ih _ h
    by_cases hx : shouldEscape x = true
    · simp [hx] at this
    · simp only [hx, if_false] at this
      refine ⟨this.1, ?_⟩
      intro c hc
      rcases List.mem_cons.mp hc with e | hm
      · subst e; simpa using hx
      · exact this.2 c hm

theorem escape_eq_pctEncode (s : GoString) : escape s = pctEncode s := by
  unfold escape pctEncode
  simp only
  split
  · rename_i h
    have hs := (hexCount_eq_zero s 0 h).2
    clear h
    induction s with
    | nil => rfl
    | cons x xs ih =>
      rw [List.flatMap_cons, shouldEscape_false_pctEncodeByte x (hs x (List.mem_cons_self _ _)),
        ← ih (fun c hc => hs c (List.mem_cons_of_mem _ hc))]
      rfl
  · have hfun : (fun (t : GoString) (c : Byte) =>
        if shouldEscape c then t ++ [37, upperhex (c.val / 16), upperhex (c.val % 16)]
        else t ++ [c]) = (fun t c => t ++ pctEncodeByte c) := by
      funext t c
      rw [← escapeStep_eq_pctEncodeByte]
      split <;> rfl
    rw [hfun, foldl_append_eq_flatMap]
    rfl

theorem escapeKey_eq_pctEncode (s : GoString) : escapeKey s = pctEncode s :=
  escape_eq_pctEncode s

theorem escapeStep_bytes (c : Byte) :
    ∀ x ∈ (if shouldEscape c then [37, upperhex (c.val / 16), upperhex (c.val % 16)] else [c]),
      shouldEscape x = false ∨ x = 37 := by
  have h1 : c.val / 16 < 16 := by have := c.isLt; omega
  have h2 : c.val % 16 < 16 := Nat.mod_lt _ (by decide)
  intro x hx
  cases hs : shouldEscape c with
  | false =>
    simp only [hs, Bool.false_eq_true, if_false, List.mem_singleton] at hx
    subst hx
    exact Or.inl hs
  | true =>
    simp only [hs, if_true, List.mem_cons, List.mem_singleton] at hx
    rcases hx with e | e | e | e
    · exact Or.inr e
    · subst e; exact Or.inl (shouldEscape_upperhex _ h1)
    · subst e; exact Or.inl (shouldEscape_upperhex _ h2)
    · simp at e

/-- Every byte of an escaped text is a byte that needs no escaping, or `%`. -/
theorem escapeKey_bytes (s : GoString) (x : Byte) (h : x ∈ escapeKey s) :
    shouldEscape x = false ∨ x = 37 := by
  rw [escapeKey_eq_pctEncode] at h
  unfold pctEncode at h
  rw [List.mem_flatMap] at h
  obtain ⟨c, _, hx⟩ := h
  rw [← escapeStep_eq_pctEncodeByte] at hx
  exact escapeStep_bytes c x hx

/-- A byte that `shouldEscape` escapes, other than `%`, never occurs in an escaped text. -/
theorem not_mem_escapeKey (s : GoString) (x : Byte) (hx : shouldEscape x = true)
    (h37 : x ≠ 37) : x ∉ escapeKey s := by
  intro hm
  rcases escapeKey_bytes s x hm with h | h
  · rw [hx] at h
    exact absurd h (by simp)
  · exact h37 h

theorem upperhex_ne_equals : ∀ n, n < 16 → upperhex n ≠ 61 := by
  decide

/-- The byte `=` occurs in an escaped text exactly when it occurs in the text. -/
theorem equals_mem_escapeKey_iff (s : GoString) : (61 : Byte) ∈ escapeKey s ↔ (61 : Byte) ∈ s := by
  rw [escapeKey_eq_pctEncode]
  unfold pctEncode
  rw [List.mem_flatMap]
  have step : ∀ c : Byte, (61 : Byte) ∈ pctEncodeByte c ↔ c = 61 := by
    intro c
    rw [← escapeStep_eq_pctEncodeByte]
    have h1 : c.val / 16 < 16 := by have := c.isLt; omega
    have h2 : c.val % 16 < 16 := Nat.mod_lt _ (by decide)
    cases hs : shouldEscape c with
    | false =>
      simp only [Bool.false_eq_true, if_false, List.mem_singleton]
      exact eq_comm
    | true =>
      simp only [if_true, List.mem_cons, List.mem_singleton]
      constructor
      · rintro (e | e | e | e)
        · exact absurd e (by decide)
        · exact absurd e.symm (upperhex_ne_equals _ h1)
        · exact absurd e.symm (upperhex_ne_equals _ h2)
        · simp at e
      · intro e
        subst e
        exact absurd hs (by decide)
  constructor
  · rintro ⟨c, hc, hm⟩
    rw [(step c).mp hm] at hc
    exact hc
  · intro h
    exact ⟨61, h, (step 61).mpr rfl⟩

/-! ## `Build` writes the specified comment -/

theorem intercalate_cons_cons {α : Type} (sep x y : List α) (r : List (List α)) :
    sep.intercalate (x :: y :: r) = x ++ sep ++ sep.intercalate (y :: r) := by
  simp [List.intercalate, List.intersperse, List.append_assoc]

theorem intercalate_cons {α : Type} (sep x : List α) (r : List (List α)) :
    sep.intercalate (x :: r) = x ++ (r.map (fun y => sep ++ y)).flatten := by
  induction r generalizing x with
  | nil => simp [List.intercalate, List.intersperse]
  | cons y r ih => rw [intercalate_cons_cons, ih y]; simp [List.append_assoc]

theorem range_keys_foldl (l : List (GoString × GoString)) (acc : List GoString) :
    l.foldl (fun keys kv => keys ++ [kv.1]) acc = acc ++ l.map Prod.fst := by
  induction l generalizing acc with
  | nil => simp
  | cons x xs ih => simp [List.foldl_cons, ih, List.append_assoc]

theorem build_loop_rest (m : GoMap) (ks : List GoString) (b : Builder) :
    (ks.foldl (fun (st : Builder × Bool) key =>
      (Builder.WriteString (Builder.WriteString (Builder.WriteString
        (if !st.2 then Builder.WriteString st.1 (lit ",") else st.1)
        (escapeKey key)) (lit "=")) (escapeValue (m.index key)), false)) (b, false)).1
      = b ++ (ks.map (fun k => lit "," ++ renderEntry (k, m.index k))).flatten := by
  induction ks generalizing b with
  | nil => simp
  | cons k ks ih =>
    rw [List.foldl_cons]
    simp only [Bool.not_false, if_true]
    rw [ih]
    simp [Builder.WriteString, renderEntry, escapeValue, List.append_assoc]

theorem build_loop (m : GoMap) (ks : List GoString) (b : Builder) :
    (ks.foldl (fun (st : Builder × Bool) key =>
      (Builder.WriteString (Builder.WriteString (Builder.WriteString
        (if !st.2 then Builder.WriteString st.1 (lit ",") else st.1)
        (escapeKey key)) (lit "=")) (escapeValue (m.index key)), false)) (b, true)).1
      = b ++ (lit ",").intercalate (ks.map (fun k => renderEntry (k, m.index k))) := by
  cases ks with
  | nil => simp [List.intercalate]
  | cons k ks =>
    rw [List.foldl_cons]
    simp only [Bool.not_true, Bool.false_eq_true, if_false]
    rw [build_loop_rest, List.map_cons, intercalate_cons]
    simp [Builder.WriteString, renderEntry, escapeValue, List.append_assoc, List.map_map,
      Function.comp_def]

/-- `Build` appends exactly `render` of the tag set to the builder. -/
theorem Build_eq_render (sqlComment : SqlComment) (builder : Builder) :
    sqlComment.Build builder = builder ++ render sqlComment.Tags := by
  unfold SqlComment.Build render
  by_cases h : sqlComment.Tags.len = 0
  · simp [h]
  · have hpos : sqlComment.Tags.len > 0 := Nat.pos_of_ne_zero h
    simp only [hpos, if_true, h, if_false]
    rw [range_keys_foldl, List.nil_append]
    have := build_loop sqlComment.Tags (sortStrings (sqlComment.Tags.range.map Prod.fst))
      (Builder.WriteString builder (lit "/*"))
    rw [this]
    simp [Builder.WriteString, renderEntries, sortedEntries, GoMap.keys, List.append_assoc,
      List.map_map, Function.comp_def]

/-! ## Go maps: keys and lookups -/

theorem GoMap.keys_some (es : Entries) : GoMap.keys (some es) = es.keys := by
  simp [GoMap.keys, GoMap.range, AList.keys, List.keys, List.map_map, Function.comp_def]

theorem GoMap.keys_nodup (m : GoMap) : m.keys.Nodup := by
  cases m with
  | none => simp [GoMap.keys, GoMap.range]
  | some es => rw [GoMap.keys_some]; exact es.keys_nodup

theorem GoMap.mem_keys_iff (m : GoMap) (k : GoString) :
    k ∈ m.keys ↔ ∃ v, m.lookup k = some v := by
  cases m with
  | none => simp [GoMap.keys, GoMap.range, GoMap.lookup]
  | some es =>
    rw [GoMap.keys_some, ← AList.mem_keys, ← AList.lookup_isSome, Option.isSome_iff_exists]
    rfl

theorem GoMap.lookup_eq_some_index (m : GoMap) (k v : GoString) (h : m.lookup k = some v) :
    m.index k = v := by
  simp [GoMap.index, h]

theorem GoMap.length_keys (m : GoMap) : m.keys.length = m.len := by
  cases m with
  | none => rfl
  | some es => simp [GoMap.keys, GoMap.range, GoMap.len]

theorem GoMap.len_eq_zero_iff (m : GoMap) : m.len = 0 ↔ ∀ k, m.lookup k = none := by
  rw [← GoMap.length_keys]
  constructor
  · intro h k
    cases hl : m.lookup k with
    | none => rfl
    | some v =>
      have hk : k ∈ m.keys := (GoMap.mem_keys_iff m k).mpr ⟨v, hl⟩
      rw [List.length_eq_zero.mp h] at hk
      exact absurd hk (List.not_mem_nil _)
  · intro h
    cases hk : m.keys with
    | nil => rfl
    | cons k ks =>
      have : k ∈ m.keys := by rw [hk]; exact List.mem_cons_self _ _
      obtain ⟨v, hv⟩ := (GoMap.mem_keys_iff m k).mp this
      rw [h k] at hv
      exact absurd hv (by simp)

theorem mem_sortedEntries (m : GoMap) (k v : GoString) :
    (k, v) ∈ sortedEntries m ↔ m.lookup k = some v := by
  unfold sortedEntries
  rw [List.mem_map]
  constructor
  · rintro ⟨k', hk', heq⟩
    have hk2 : k' ∈ m.keys := (sortStrings_perm m.keys).mem_iff.mp hk'
    obtain ⟨w, hw⟩ := (GoMap.mem_keys_iff m k').mp hk2
    rw [GoMap.lookup_eq_some_index m k' w hw] at heq
    cases heq
    exact hw
  · intro h
    refine ⟨k, ?_, ?_⟩
    · exact (sortStrings_perm m.keys).mem_iff.mpr ((GoMap.mem_keys_iff m k).mpr ⟨v, h⟩)
    · rw [GoMap.lookup_eq_some_index m k v h]

theorem sortedEntries_keys (m : GoMap) :
    (sortedEntries m).map Prod.fst = sortStrings m.keys := by
  simp [sortedEntries, List.map_map, Function.comp_def]

theorem sortedEntries_strict (m : GoMap) :
    StrictAscending ((sortedEntries m).map Prod.fst) := by
  rw [sortedEntries_keys]
  exact sortStrings_strict _ (GoMap.keys_nodup m)

theorem length_sortedEntries (m : GoMap) : (sortedEntries m).length = m.len := by
  rw [← GoMap.length_keys, ← (sortStrings_perm m.keys).length_eq]
  simp [sortedEntries]

/-- Rendering depends only on the key-to-value mapping. -/
theorem render_congr (m₁ m₂ : GoMap) (h : ∀ k, m₁.lookup k = m₂.lookup k) :
    render m₁ = render m₂ := by
  have hkeys : sortStrings m₁.keys = sortStrings m₂.keys := by
    apply strictAscending_unique _ _ (sortStrings_strict _ (GoMap.keys_nodup m₁))
      (sortStrings_strict _ (GoMap.keys_nodup m₂))
    intro k
    rw [(sortStrings_perm m₁.keys).mem_iff, (sortStrings_perm m₂.keys).mem_iff,
      GoMap.mem_keys_iff, GoMap.mem_keys_iff, h k]
  have hidx : ∀ k, m₁.index k = m₂.index k := fun k => by simp [GoMap.index, h k]
  have hlen : m₁.len = m₂.len := by
    rw [← GoMap.length_keys, ← GoMap.length_keys, ← (sortStrings_perm m₁.keys).length_eq,
      ← (sortStrings_perm m₂.keys).length_eq, hkeys]
  unfold render sortedEntries
  rw [hlen, hkeys]
  simp [hidx]

/-! ## Bytes of the rendered comment -/

theorem mem_intercalate {α : Type} (sep : List α) (x : α) :
    ∀ L : List (List α), x ∈ sep.intercalate L → x ∈ sep ∨ ∃ l ∈ L, x ∈ l
  | [], h => by simp [List.intercalate] at h
  | [l], h => by
    right
    exact ⟨l, List.mem_singleton_self _, by simpa [List.intercalate] using h⟩
  | l :: l₂ :: r, h => by
    rw [intercalate_cons_cons, List.mem_append, List.mem_append] at h
    rcases h with (h | h) | h
    · exact Or.inr ⟨l, List.mem_cons_self _ _, h⟩
    · exact Or.inl h
    · rcases mem_intercalate sep x (l₂ :: r) h with h | ⟨l', hl', hx⟩
      · exact Or.inl h
      · exact Or.inr ⟨l', List.mem_cons_of_mem _ hl', hx⟩

/-- A byte that is escaped, and is none of `%`, `=`, quote, occurs in no rendered entry. -/
theorem not_mem_renderEntry (kv : GoString × GoString) (x : Byte)
    (hx : shouldEscape x = true) (h37 : x ≠ 37) (h39 : x ≠ 39) :
    x ∉ renderEntry kv := by
  have h61 : x ≠ 61 := fun e => by subst e; exact absurd hx (by decide)
  unfold renderEntry
  simp only [List.mem_append, not_or]
  refine ⟨⟨⟨⟨not_mem_escapeKey _ x hx h37, ?_⟩, ?_⟩, not_mem_escapeKey _ x hx h37⟩, ?_⟩
  · simpa [lit] using h61
  · simpa [lit] using h39
  · simpa [lit] using h39

theorem not_mem_intercalate_renderEntry (kvs : List (GoString × GoString)) (x : Byte)
    (hx : shouldEscape x = true) (h37 : x ≠ 37) (h39 : x ≠ 39) (h44 : x ≠ 44) :
    x ∉ (lit ",").intercalate (kvs.map renderEntry) := by
  intro hm
  rcases mem_intercalate _ x _ hm with h | ⟨l, hl, hxl⟩
  · exact h44 (by simpa [lit] using h)
  · obtain ⟨kv, _, rfl⟩ := List.mem_map.mp hl
    exact not_mem_renderEntry kv x hx h37 h39 hxl

theorem count_quote_escapeKey (s : GoString) : (escapeKey s).count 39 = 0 :=
  List.count_eq_zero.mpr (not_mem_escapeKey s 39 (by decide) (by decide))

theorem count_quote_renderEntry (kv : GoString × GoString) :
    (renderEntry kv).count 39 = 2 := by
  unfold renderEntry
  simp only [List.count_append, count_quote_escapeKey]
  decide

theorem count_quote_intercalate : ∀ kvs : List (GoString × GoString),
    ((lit ",").intercalate (kvs.map renderEntry)).count 39 = 2 * kvs.length
  | [] => by simp [List.intercalate]
  | [kv] => by
    simp only [List.map_cons, List.map_nil, List.length_singleton]
    rw [intercalate_cons]
    simp [count_quote_renderEntry]
  | kv :: kv₂ :: r => by
    rw [List.map_cons, List.map_cons, intercalate_cons_cons, List.count_append,
      List.count_append, ← List.map_cons, count_quote_intercalate (kv₂ :: r),
      count_quote_renderEntry]
    have : (lit ",").count (39 : Byte) = 0 := by decide
    rw [this]
    simp only [List.length_cons]
    omega

theorem count_quote_render (m : GoMap) : (render m).count 39 = 2 * m.len := by
  unfold render
  by_cases h : m.len = 0
  · simp [h]
  · rw [if_neg h]
    unfold renderEntries
    rw [List.count_append, List.count_append, count_quote_intercalate, length_sortedEntries]
    have h1 : (lit "/*").count (39 : Byte) = 0 := by decide
    have h2 : (lit "*/").count (39 : Byte) = 0 := by decide
    omega

theorem lit_close : lit "*/" = [42, 47] := by decide

theorem lit_open : lit "/*" = [47, 42] := by decide

theorem closesOnlyAtEnd_nil : ClosesOnlyAtEnd [] := by
  unfold ClosesOnlyAtEnd
  rw [lit_close]
  intro i
  match i with
  | 0 => simp
  | 1 => simp
  | n + 2 => simp

theorem closesOnlyAtEnd_cons (x : Byte) (l : GoString) (h : ClosesOnlyAtEnd l)
    (hx : ((x :: l) ++ lit "*/").take 2 ≠ lit "*/") : ClosesOnlyAtEnd (x :: l) := by
  intro i
  match i with
  | 0 =>
    simp only [List.drop_zero, List.length_cons]
    constructor
    · intro e; exact absurd e hx
    · intro e; omega
  | n + 1 =>
    simp only [List.cons_append, List.drop_succ_cons, List.length_cons, Nat.add_right_cancel_iff]
    exact h n

theorem closesOnlyAtEnd_of_no_star (l : GoString) (h : (42 : Byte) ∉ l) :
    ClosesOnlyAtEnd l := by
  induction l with
  | nil => exact closesOnlyAtEnd_nil
  | cons x xs ih =>
    have hx : x ≠ 42 := fun e => h (by rw [e]; exact List.mem_cons_self _ _)
    apply closesOnlyAtEnd_cons x xs (ih (fun hm => h (List.mem_cons_of_mem _ hm)))
    rw [lit_close]
    intro e
    cases xs with
    | nil => simp [hx] at e
    | cons y ys => simp [hx] at e

/-! ## `MergeClause`: copying two maps into a fresh one -/

theorem lookup_foldl_insert (l : List (Sigma fun _ : GoString => GoString))
    (hl : l.NodupKeys) (acc : Entries) (k : GoString) :
    (l.foldl (fun t e => t.insert e.1 e.2) acc).lookup k
      = (l.dlookup k).or (acc.lookup k) := by
  induction l generalizing acc with
  | nil => simp
  | cons e es ih =>
    have hnd := List.nodupKeys_cons.mp hl
    rw [List.foldl_cons, ih hnd.2]
    by_cases hk : k = e.1
    · subst hk
      have hnone : List.dlookup e.1 es = none := List.dlookup_eq_none.mpr hnd.1
      rw [hnone, Option.none_or, AList.lookup_insert]
      cases e with
      | mk a b => simp [List.dlookup_cons_eq]
    · rw [AList.lookup_insert_ne hk]
      cases e with
      | mk a b => rw [List.dlookup_cons_ne _ _ (fun h => hk h)]

theorem lookup_range_foldl_insert (m : GoMap) (acc : Entries) (k : GoString) :
    (m.range.foldl (fun tags kv => tags.insert kv.1 kv.2) acc).lookup k
      = (m.lookup k).or (acc.lookup k) := by
  cases m with
  | none => simp [GoMap.range, GoMap.lookup]
  | some es =>
    simp only [GoMap.range, GoMap.lookup, List.foldl_map]
    exact lookup_foldl_insert es.entries es.nodupKeys acc k

/-- Merging into a clause that holds the `SqlComment` `a`: the clause then holds a
`SqlComment` that maps each key to the receiver's value, else to the value in `a`. -/
theorem mergeClause_lookup (a b : SqlComment) (c : Clause)
    (hc : c.Expression.asSqlComment = some a) :
    ∃ r : SqlComment, (b.MergeClause c).Expression = .sqlComment r ∧
      ∀ k, r.Tags.lookup k = (b.Tags.lookup k).or (a.Tags.lookup k) := by
  unfold SqlComment.MergeClause
  rw [hc]
  refine ⟨_, rfl, ?_⟩
  intro k
  have hsome : ∀ es : Entries, GoMap.lookup (some es) k = es.lookup k := fun _ => rfl
  rw [hsome, lookup_range_foldl_insert, lookup_range_foldl_insert, AList.lookup_empty,
    Option.or_none]

/-- Merging into a clause that holds no `SqlComment` stores the receiver itself. -/
theorem mergeClause_first (b : SqlComment) (c : Clause)
    (hc : c.Expression.asSqlComment = none) :
    (b.MergeClause c).Expression = .sqlComment b := by
  unfold SqlComment.MergeClause
  rw [hc]

theorem mem_keys_of_lookup_or (r a b : GoMap)
    (h : ∀ k, r.lookup k = (b.lookup k).or (a.lookup k)) (k : GoString) :
    k ∈ r.keys ↔ k ∈ a.keys ∨ k ∈ b.keys := by
  rw [GoMap.mem_keys_iff, GoMap.mem_keys_iff, GoMap.mem_keys_iff, h k]
  cases hb : b.lookup k <;> cases ha : a.lookup k <;> simp

theorem chain_from_sqlComment (ts : List SqlComment) (a : SqlComment) (c : Clause)
    (hc : c.Expression.asSqlComment = some a) :
    ∃ r : SqlComment, (ts.foldl (fun c t => t.MergeClause c) c).Expression = .sqlComment r ∧
      ∀ k, r.Tags.lookup k
        = (ts.reverse.findSome? (fun t => t.Tags.lookup k)).or (a.Tags.lookup k) := by
  induction ts generalizing a c with
  | nil =>
    refine ⟨a, ?_, by simp⟩
    cases hE : c.Expression with
    | nil => rw [hE] at hc; simp [Expression.asSqlComment] at hc
    | other n => rw [hE] at hc; simp [Expression.asSqlComment] at hc
    | sqlComment s =>
      rw [hE] at hc
      simp only [Expression.asSqlComment, Option.some.injEq] at hc
      rw [List.foldl_nil, hE, hc]
  | cons t ts ih =>
    obtain ⟨r₁, hr₁, hl₁⟩ := mergeClause_lookup a t c hc
    have hc₁ : (t.MergeClause c).Expression.asSqlComment = some r₁ := by
      rw [hr₁]; rfl
    obtain ⟨r, hr, hl⟩ := ih r₁ (t.MergeClause c) hc₁
    refine ⟨r, by rw [List.foldl_cons]; exact hr, ?_⟩
    intro k
    have hone : List.findSome? (fun t => t.Tags.lookup k) [t] = t.Tags.lookup k := by
      cases h : t.Tags.lookup k <;> simp [List.findSome?, h]
    rw [hl k, hl₁ k, List.reverse_cons, List.findSome?_append, Option.or_assoc, hone]

theorem build_nil_eq_nil_iff (sqlComment : SqlComment) :
    sqlComment.Build [] = [] ↔ sqlComment.Tags.len = 0 := by
  rw [Build_eq_render, List.nil_append]
  unfold render
  by_cases h : sqlComment.Tags.len = 0
  · simp [h]
  · simp [h, renderEntries, lit]

/-! ## Claims about `Build` -/

/-- C1: for a tag set with at least one entry, `Build` writes exactly `/*`, the
entries `escapeKey(k)='escapeKey(v)'` of the set taken in strictly ascending
byte-wise order of their unescaped keys and joined by single commas, then `*/`;
each key of the set gives exactly one entry and nothing else is written. -/
theorem build_writes_sorted_entries (sqlComment : SqlComment) (builder : Builder)
    (h : 0 < sqlComment.Tags.len) :
    ∃ kvs : List (GoString × GoString),
      StrictAscending (kvs.map Prod.fst) ∧
      (∀ k v, (k, v) ∈ kvs ↔ sqlComment.Tags.lookup k = some v) ∧
      sqlComment.Build builder =
        builder ++ (lit "/*" ++ (lit ",").intercalate (kvs.map (fun kv =>
          escapeKey kv.1 ++ lit "=" ++ lit "'" ++ escapeKey kv.2 ++ lit "'")) ++ lit "*/") := by
  refine ⟨sortedEntries sqlComment.Tags, sortedEntries_strict _, mem_sortedEntries _, ?_⟩
  rw [Build_eq_render]
  unfold render
  rw [if_neg (Nat.pos_iff_ne_zero.mp h)]
  rfl

/-- C1 at the tags of the `SimpleTags` test: the hypothesis holds and the comment
is `/*application='value',endpoint='%2Ftest%2Fpath'*/`. -/
theorem build_writes_sorted_entries_witness :
    0 < (NewTags (GoMap.ofList [(lit "application", lit "value"),
        (lit "endpoint", lit "/test/path")])).Tags.len ∧
    (NewTags (GoMap.ofList [(lit "application", lit "value"),
        (lit "endpoint", lit "/test/path")])).Build []
      = lit "/*application='value',endpoint='%2Ftest%2Fpath'*/" ∧
    ∃ kvs : List (GoString × GoString),
      StrictAscending (kvs.map Prod.fst) ∧
      (∀ k v, (k, v) ∈ kvs ↔ (NewTags (GoMap.ofList [(lit "application", lit "value"),
        (lit "endpoint", lit "/test/path")])).Tags.lookup k = some v) ∧
      (NewTags (GoMap.ofList [(lit "application", lit "value"),
        (lit "endpoint", lit "/test/path")])).Build [] =
        [] ++ (lit "/*" ++ (lit ",").intercalate (kvs.map (fun kv =>
          escapeKey kv.1 ++ lit "=" ++ lit "'" ++ escapeKey kv.2 ++ lit "'")) ++ lit "*/") :=
  ⟨by decide, by decide, build_writes_sorted_entries _ [] (by decide)⟩

/-- C5: `Build` leaves the builder as it was exactly when the tag set has no
entries; in particular it writes nothing for the nil map of `NewTags(nil)` and
for an empty map, and writes a non-empty comment for every tag set with an entry. -/
theorem build_writes_nothing_iff_empty (sqlComment : SqlComment) (builder : Builder) :
    (sqlComment.Build builder = builder ↔ sqlComment.Tags.len = 0) ∧
    (∃ out, sqlComment.Build builder = builder ++ out ∧ (out = [] ↔ sqlComment.Tags.len = 0)) ∧
    (NewTags none).Build builder = builder ∧
    (NewTags (some ∅)).Build builder = builder := by
  have key : render sqlComment.Tags = [] ↔ sqlComment.Tags.len = 0 := by
    unfold render
    by_cases h : sqlComment.Tags.len = 0
    · simp [h]
    · simp [h, renderEntries, lit]
  refine ⟨?_, ⟨render sqlComment.Tags, Build_eq_render _ _, key⟩, ?_, ?_⟩
  · rw [Build_eq_render, ← key]
    constructor
    · intro h
      exact List.append_right_eq_self.mp h
    · intro h
      rw [h, List.append_nil]
  · rfl
  · rfl

/-- C6: two tag sets whose entry lists are permutations of each other (the
same key/value pairs met in a different order) make `Build` write the same text. -/
theorem build_perm_invariant (m₁ m₂ : Entries) (builder : Builder)
    (h : m₁.entries.Perm m₂.entries) :
    (NewTags (some m₁)).Build builder = (NewTags (some m₂)).Build builder := by
  rw [Build_eq_render, Build_eq_render]
  congr 1
  apply render_congr
  intro k
  exact AList.perm_lookup h

/-- C6 at the two orders of the `SimpleTags` pairs. -/
theorem build_perm_invariant_witness :
    (((∅ : Entries).insert (lit "application") (lit "value")).insert
        (lit "endpoint") (lit "/test/path")).entries.Perm
      (((∅ : Entries).insert (lit "endpoint") (lit "/test/path")).insert
        (lit "application") (lit "value")).entries ∧
    (NewTags (some (((∅ : Entries).insert (lit "application") (lit "value")).insert
        (lit "endpoint") (lit "/test/path")))).Build []
      = (NewTags (some (((∅ : Entries).insert (lit "endpoint") (lit "/test/path")).insert
        (lit "application") (lit "value")))).Build [] :=
  ⟨by decide, build_perm_invariant _ _ [] (by decide)⟩

/-- C3: for a tag set with at least one entry the comment written by `Build` is
`/*`, a body, `*/`, where the body holds no `*` and no `/`; hence `*/` occurs
in the comment at exactly one position, its last two bytes. -/
theorem build_comment_closes_once (sqlComment : SqlComment) (builder : Builder)
    (h : 0 < sqlComment.Tags.len) :
    ∃ body : GoString,
      sqlComment.Build builder = builder ++ (lit "/*" ++ body ++ lit "*/") ∧
      (42 : Byte) ∉ body ∧ (47 : Byte) ∉ body ∧
      ∀ i, ((lit "/*" ++ body ++ lit "*/").drop i).take 2 = lit "*/" ↔
        i + 2 = (lit "/*" ++ body ++ lit "*/").length := by
  have h42 := not_mem_intercalate_renderEntry (sortedEntries sqlComment.Tags) 42
    (by decide) (by decide) (by decide) (by decide)
  have h47 := not_mem_intercalate_renderEntry (sortedEntries sqlComment.Tags) 47
    (by decide) (by decide) (by decide) (by decide)
  refine ⟨(lit ",").intercalate ((sortedEntries sqlComment.Tags).map renderEntry), ?_,
    h42, h47, ?_⟩
  · rw [Build_eq_render]
    unfold render
    rw [if_neg (Nat.pos_iff_ne_zero.mp h)]
    rfl
  · generalize (lit ",").intercalate ((sortedEntries sqlComment.Tags).map renderEntry) = body
      at h42 h47
    have h1 : ClosesOnlyAtEnd (42 :: body) := by
      apply closesOnlyAtEnd_cons 42 body (closesOnlyAtEnd_of_no_star body h42)
      rw [lit_close]
      intro e
      cases body with
      | nil => simp at e
      | cons y ys =>
        simp at e
        exact h47 (by rw [e]; exact List.mem_cons_self _ _)
    have h2 : ClosesOnlyAtEnd (47 :: 42 :: body) := by
      apply closesOnlyAtEnd_cons 47 _ h1
      rw [lit_close]
      simp
    intro i
    have := h2 i
    rw [lit_open]
    simp only [List.cons_append, List.nil_append, List.length_cons, List.length_append] at this ⊢
    rw [this, lit_close]
    simp only [List.length_cons, List.length_nil]
    omega

/-- C3 at a tag whose key is `*/` and whose value holds `*/`, a quote and `/*`. -/
theorem build_comment_closes_once_witness :
    0 < (NewTag (lit "*/") (lit "*/ ' /*")).Tags.len ∧
    (NewTag (lit "*/") (lit "*/ ' /*")).Build []
      = lit "/*%2A%2F='%2A%2F%20%27%20%2F%2A'*/" ∧
    ∃ body : GoString,
      (NewTag (lit "*/") (lit "*/ ' /*")).Build [] = [] ++ (lit "/*" ++ body ++ lit "*/") ∧
      (42 : Byte) ∉ body ∧ (47 : Byte) ∉ body ∧
      ∀ i, ((lit "/*" ++ body ++ lit "*/").drop i).take 2 = lit "*/" ↔
        i + 2 = (lit "/*" ++ body ++ lit "*/").length :=
  ⟨by decide, by decide, build_comment_closes_once _ [] (by decide)⟩

/-- C9: the text written by `Build` for a tag set with `n` entries is, entry by
entry, the escaped key, `=`, a single quote, the escaped value and a single
quote; neither the escaped keys and values nor `/*`, `,`, `=` and `*/` hold a
single quote, so the text holds exactly `2 * n` single quotes and they are the
opening and closing quotes around the `n` escaped values. -/
theorem build_quotes_balanced (sqlComment : SqlComment) (builder : Builder) :
    ∃ kvs : List (GoString × GoString),
      kvs.length = sqlComment.Tags.len ∧
      (∀ k v, (k, v) ∈ kvs ↔ sqlComment.Tags.lookup k = some v) ∧
      (∃ out : GoString, sqlComment.Build builder = builder ++ out ∧
        out.count 39 = 2 * sqlComment.Tags.len ∧
        out = if kvs = [] then [] else
          lit "/*" ++ (lit ",").intercalate (kvs.map (fun kv =>
            escapeKey kv.1 ++ lit "=" ++ ([39] ++ escapeKey kv.2 ++ [39]))) ++ lit "*/") ∧
      (∀ kv ∈ kvs, (escapeKey kv.1).count 39 = 0 ∧ (escapeKey kv.2).count 39 = 0) ∧
      (lit "/*").count (39 : Byte) = 0 ∧ (lit ",").count (39 : Byte) = 0 ∧
      (lit "=").count (39 : Byte) = 0 ∧ (lit "*/").count (39 : Byte) = 0 := by
  refine ⟨sortedEntries sqlComment.Tags, length_sortedEntries _, mem_sortedEntries _,
    ⟨render sqlComment.Tags, Build_eq_render _ _, count_quote_render _, ?_⟩,
    fun kv _ => ⟨count_quote_escapeKey _, count_quote_escapeKey _⟩,
    by decide, by decide, by decide, by decide⟩
  have hfun : (fun kv : GoString × GoString =>
      escapeKey kv.1 ++ lit "=" ++ ([39] ++ escapeKey kv.2 ++ [39])) = renderEntry := by
    funext kv
    have hq : lit "'" = [39] := by decide
    simp [renderEntry, hq, List.append_assoc]
  rw [hfun]
  unfold render
  by_cases h : sqlComment.Tags.len = 0
  · have hnil : sortedEntries sqlComment.Tags = [] :=
      List.length_eq_zero.mp ((length_sortedEntries _).trans h)
    rw [if_pos h, if_pos hnil]
  · have hne : sortedEntries sqlComment.Tags ≠ [] := by
      intro e
      have := length_sortedEntries sqlComment.Tags
      rw [e] at this
      exact h this.symm
    rw [if_neg h, if_neg hne]
    rfl

theorem takeWhile_append_stop {α : Type} (p : α → Bool) (l : List α) (a : α) (r : List α)
    (hl : ∀ x ∈ l, p x = true) (ha : p a = false) :
    (l ++ a :: r).takeWhile p = l := by
  induction l with
  | nil => simp [List.takeWhile, ha]
  | cons x xs ih =>
    rw [List.cons_append, List.takeWhile_cons, hl x (List.mem_cons_self _ _)]
    simp only [if_true]
    rw [ih (fun y hy => hl y (List.mem_cons_of_mem _ hy))]

/-- Cutting a rendered entry before its `='` gives back the escaped key. -/
theorem renderEntry_key (kv : GoString × GoString) :
    ((renderEntry kv).takeWhile (fun c => decide (c ≠ 39))).dropLast = escapeKey kv.1 := by
  have hsplit : renderEntry kv
      = (escapeKey kv.1 ++ [61]) ++ 39 :: (escapeKey kv.2 ++ [39]) := by
    unfold renderEntry
    have h1 : lit "=" = [61] := by decide
    have h2 : lit "'" = [39] := by decide
    rw [h1, h2]
    simp [List.append_assoc]
  rw [hsplit, takeWhile_append_stop]
  · exact List.dropLast_concat
  · intro x hx
    rcases List.mem_append.mp hx with h | h
    · have : x ≠ 39 := fun e => by
        subst e
        exact not_mem_escapeKey kv.1 39 (by decide) (by decide) h
      simpa using this
    · have : x = 61 := by simpa using h
      subst this
      decide
  · simp

theorem commentKeys_renderEntries (kvs : List (GoString × GoString)) (h : kvs ≠ []) :
    commentKeys (renderEntries kvs) = kvs.map (fun kv => escapeKey kv.1) := by
  unfold commentKeys renderEntries
  rw [lit_open, lit_close]
  have hcomma : lit "," = [44] := by decide
  rw [hcomma]
  have hne : ¬ ([47, 42] ++ List.intercalate [44] (kvs.map renderEntry) ++ [42, 47] = []) := by
    simp
  rw [if_neg hne]
  have hdrop : (([47, 42] ++ List.intercalate [44] (kvs.map renderEntry) ++ [42, 47]).drop
      2).dropLast.dropLast = List.intercalate [44] (kvs.map renderEntry) := by
    have : ([47, 42] ++ List.intercalate [44] (kvs.map renderEntry) ++ [42, 47]).drop 2
        = (List.intercalate [44] (kvs.map renderEntry) ++ [42]) ++ [47] := by
      simp
    rw [this, List.dropLast_concat, List.dropLast_concat]
  rw [hdrop, List.splitOn_intercalate]
  · rw [List.map_map]
    apply List.map_congr_left
    intro kv _
    exact renderEntry_key kv
  · intro l hl
    obtain ⟨kv, _, rfl⟩ := List.mem_map.mp hl
    exact not_mem_renderEntry kv 44 (by decide) (by decide) (by decide)
  · simpa using h

/-- C7 as stated fails: with the keys `#` and `$` the comment is
`/*%23='x',$='y'*/`; its key texts are `%23` then `$`, and `$` is below `%23`. -/
theorem rendered_keys_not_ascending :
    (NewTags (GoMap.ofList [(lit "#", lit "x"), (lit "$", lit "y")])).Build []
      = lit "/*%23='x',$='y'*/" ∧
    commentKeys ((NewTags (GoMap.ofList [(lit "#", lit "x"), (lit "$", lit "y")])).Build [])
      = [lit "%23", lit "$"] ∧
    ¬ Ascending (commentKeys
      ((NewTags (GoMap.ofList [(lit "#", lit "x"), (lit "$", lit "y")])).Build [])) := by
  have h2 : commentKeys
      ((NewTags (GoMap.ofList [(lit "#", lit "x"), (lit "$", lit "y")])).Build [])
      = [lit "%23", lit "$"] := by decide
  refine ⟨by decide, h2, ?_⟩
  rw [h2]
  unfold Ascending
  intro h
  have := (List.pairwise_cons.mp h).1 (lit "$") (List.mem_singleton_self _)
  exact absurd this (by decide)

/-- C7 amended: the key texts of the rendered comment, read left to right, are
the escapes `escapeKey(k1), ..., escapeKey(kn)` of the keys of the tag set taken
in strictly ascending byte-wise order of the unescaped keys. -/
theorem rendered_keys_follow_key_order (sqlComment : SqlComment) :
    ∃ ks : List GoString,
      StrictAscending ks ∧ (∀ k, k ∈ ks ↔ k ∈ sqlComment.Tags.keys) ∧
      commentKeys (sqlComment.Build []) = ks.map escapeKey := by
  refine ⟨sortStrings sqlComment.Tags.keys,
    sortStrings_strict _ (GoMap.keys_nodup _),
    fun k => (sortStrings_perm _).mem_iff, ?_⟩
  rw [Build_eq_render, List.nil_append]
  unfold render
  by_cases h : sqlComment.Tags.len = 0
  · rw [if_pos h]
    have hk : sqlComment.Tags.keys = [] :=
      List.length_eq_zero.mp ((GoMap.length_keys _).trans h)
    rw [hk]
    rfl
  · rw [if_neg h]
    have hne : sortedEntries sqlComment.Tags ≠ [] := by
      intro e
      have := length_sortedEntries sqlComment.Tags
      rw [e] at this
      exact h this.symm
    rw [commentKeys_renderEntries _ hne, ← sortedEntries_keys, List.map_map]
    rfl

/-! ## Claims about escaping -/

/-- C4: `escapeKey(s)` is the byte-by-byte path-segment percent-encoding of `s`
(letters, digits and `- _ . ~ $ & + = : @` copied, every other byte written as
`%` and two upper-case hex digits), `escapeValue(s)` is that text between single
quotes; the encodings of `/`, space, quote, `*`, `%` and of the two test
strings come out as stated. -/
theorem escapeKey_is_path_segment_encoding :
    (∀ s : GoString, escapeKey s = s.flatMap (fun c =>
      if c ∈ keptBytes then [c]
      else [37, hexDigits.getD (c.val / 16) 0, hexDigits.getD (c.val % 16) 0])) ∧
    (∀ s : GoString, escapeValue s = lit "'" ++ escapeKey s ++ lit "'") ∧
    escapeKey (lit "/") = lit "%2F" ∧
    escapeKey (lit " ") = lit "%20" ∧
    escapeKey (lit "'") = lit "%27" ∧
    escapeKey (lit "*") = lit "%2A" ∧
    escapeKey (lit "%") = lit "%25" ∧
    escapeKey (lit "' /application/ '") = lit "%27%20%2Fapplication%2F%20%27" ∧
    escapeValue (lit "'  value  '") = lit "'%27%20%20value%20%20%27'" := by
  refine ⟨fun s => escapeKey_eq_pctEncode s, fun s => rfl, ?_, ?_, ?_, ?_, ?_, ?_, ?_⟩ <;> decide

/-- C8 as stated fails: `=` is not escaped, so the escaped text of `a=b` is
`a=b` itself and contains the key/value separator. -/
theorem escapeKey_keeps_equals :
    escapeKey (lit "a=b") = lit "a=b" ∧ (61 : Byte) ∈ escapeKey (lit "a=b") ∧
    ¬ (∀ s : GoString, ∀ x ∈ lit ",='*/", x ∉ escapeKey s) := by
  refine ⟨by decide, by decide, ?_⟩
  intro h
  exact h (lit "a=b") 61 (by decide) (by decide)

/-- C8 amended: an escaped text contains no `,`, no single quote, no `*` and no
`/`; the byte `=` is copied unchanged, so it occurs in the escaped text exactly
when it occurs in the original. -/
theorem escapeKey_excludes_delimiters (s : GoString) :
    (∀ x ∈ lit ",'*/", x ∉ escapeKey s) ∧
    ((61 : Byte) ∈ escapeKey s ↔ (61 : Byte) ∈ s) := by
  refine ⟨?_, equals_mem_escapeKey_iff s⟩
  intro x hx
  have hx2 : x = 44 ∨ x = 39 ∨ x = 42 ∨ x = 47 := by
    simpa [lit] using hx
  rcases hx2 with e | e | e | e <;> subst e <;>
    exact not_mem_escapeKey s _ (by decide) (by decide)

/-! ## Claims about `MergeClause` -/

/-- C2: when the target clause holds the `SqlComment` `a`, after
`b.MergeClause(clause)` the clause holds a `SqlComment` whose keys are exactly
the keys of `a` together with the keys of `b`, and whose value at `k` is the
value of `b` when `k` is a key of `b` and the value of `a` otherwise. -/
theorem mergeClause_union_incoming_wins (a b : SqlComment) (c : Clause)
    (hc : c.Expression = .sqlComment a) :
    ∃ r : SqlComment, (b.MergeClause c).Expression = .sqlComment r ∧
      (∀ k, k ∈ r.Tags.keys ↔ k ∈ a.Tags.keys ∨ k ∈ b.Tags.keys) ∧
      (∀ k, r.Tags.lookup k = (b.Tags.lookup k).or (a.Tags.lookup k)) ∧
      (∀ k, r.Tags.index k = if k ∈ b.Tags.keys then b.Tags.index k else a.Tags.index k) := by
  have hc2 : c.Expression.asSqlComment = some a := by rw [hc]; rfl
  obtain ⟨r, hr, hl⟩ := mergeClause_lookup a b c hc2
  refine ⟨r, hr, mem_keys_of_lookup_or _ _ _ hl, hl, ?_⟩
  intro k
  by_cases hk : k ∈ b.Tags.keys
  · obtain ⟨v, hv⟩ := (GoMap.mem_keys_iff _ k).mp hk
    simp [GoMap.index, hl k, hv, hk]
  · have hn : b.Tags.lookup k = none := by
      cases hb : b.Tags.lookup k with
      | none => rfl
      | some v => exact absurd ((GoMap.mem_keys_iff _ k).mpr ⟨v, hb⟩) hk
    simp [GoMap.index, hl k, hn, hk]

/-- C2 at the tags of the `MergeClause` test: `application` takes the incoming
value `value2` and `hello` is added. -/
theorem mergeClause_union_incoming_wins_witness :
    (Clause.mk [] .nil .nil .nil (.sqlComment
        (NewTags (GoMap.ofList [(lit "application", lit "value")])))).Expression
      = .sqlComment (NewTags (GoMap.ofList [(lit "application", lit "value")])) ∧
    (((NewTags (GoMap.ofList [(lit "hello", lit "world"),
        (lit "application", lit "value2")])).MergeClause
      (Clause.mk [] .nil .nil .nil (.sqlComment
        (NewTags (GoMap.ofList [(lit "application", lit "value")]))))).Expression.asSqlComment.map
          (fun r => sortedEntries r.Tags))
      = some [(lit "application", lit "value2"), (lit "hello", lit "world")] ∧
    ∃ r : SqlComment,
      ((NewTags (GoMap.ofList [(lit "hello", lit "world"),
        (lit "application", lit "value2")])).MergeClause
        (Clause.mk [] .nil .nil .nil (.sqlComment
          (NewTags (GoMap.ofList [(lit "application", lit "value")]))))).Expression
        = .sqlComment r ∧
      (∀ k, k ∈ r.Tags.keys ↔
        k ∈ (NewTags (GoMap.ofList [(lit "application", lit "value")])).Tags.keys ∨
        k ∈ (NewTags (GoMap.ofList [(lit "hello", lit "world"),
          (lit "application", lit "value2")])).Tags.keys) ∧
      (∀ k, r.Tags.lookup k =
        ((NewTags (GoMap.ofList [(lit "hello", lit "world"),
          (lit "application", lit "value2")])).Tags.lookup k).or
        ((NewTags (GoMap.ofList [(lit "application", lit "value")])).Tags.lookup k)) ∧
      (∀ k, r.Tags.index k =
        if k ∈ (NewTags (GoMap.ofList [(lit "hello", lit "world"),
          (lit "application", lit "value2")])).Tags.keys
        then (NewTags (GoMap.ofList [(lit "hello", lit "world"),
          (lit "application", lit "value2")])).Tags.index k
        else (NewTags (GoMap.ofList [(lit "application", lit "value")])).Tags.index k) :=
  ⟨rfl, by decide, mergeClause_union_incoming_wins _ _ _ rfl⟩

/-- C10: attaching the tag sets `ts` one after the other, each by `MergeClause`
on the clause left by the previous one, to a clause that holds no `SqlComment`,
leaves a `SqlComment` whose keys are the keys of all of them and which maps each
key to its value in the last tag set of the list that has the key. -/
theorem chained_merge_last_wins (ts : List SqlComment) (c : Clause)
    (hne : ts ≠ []) (hc : c.Expression.asSqlComment = none) :
    ∃ r : SqlComment,
      (ts.foldl (fun c t => t.MergeClause c) c).Expression = .sqlComment r ∧
      (∀ k, k ∈ r.Tags.keys ↔ ∃ t ∈ ts, k ∈ t.Tags.keys) ∧
      (∀ k, r.Tags.lookup k = ts.reverse.findSome? (fun t => t.Tags.lookup k)) := by
  cases ts with
  | nil => exact absurd rfl hne
  | cons t rest =>
    have h1 : (t.MergeClause c).Expression.asSqlComment = some t := by
      rw [mergeClause_first t c hc]; rfl
    obtain ⟨r, hr, hl⟩ := chain_from_sqlComment rest t (t.MergeClause c) h1
    have hl2 : ∀ k, r.Tags.lookup k
        = (t :: rest).reverse.findSome? (fun t => t.Tags.lookup k) := by
      intro k
      have hone : List.findSome? (fun t => t.Tags.lookup k) [t] = t.Tags.lookup k := by
        cases h : t.Tags.lookup k <;> simp [List.findSome?, h]
      rw [hl k, List.reverse_cons, List.findSome?_append, hone]
    refine ⟨r, by rw [List.foldl_cons]; exact hr, ?_, hl2⟩
    intro k
    rw [GoMap.mem_keys_iff, hl2 k, ← Option.isSome_iff_exists, List.findSome?_isSome_iff]
    constructor
    · rintro ⟨x, hx, hs⟩
      exact ⟨x, List.mem_reverse.mp hx,
        (GoMap.mem_keys_iff _ k).mpr (Option.isSome_iff_exists.mp hs)⟩
    · rintro ⟨x, hx, hk⟩
      exact ⟨x, List.mem_reverse.mpr hx,
        Option.isSome_iff_exists.mpr ((GoMap.mem_keys_iff _ k).mp hk)⟩

/-- C10 at three attachments to a clause with a nil expression: `application`
keeps the value of the second tag set and `hello` the value of the third. -/
theorem chained_merge_last_wins_witness :
    [NewTags (GoMap.ofList [(lit "application", lit "value")]),
      NewTags (GoMap.ofList [(lit "hello", lit "world"), (lit "application", lit "value2")]),
      NewTag (lit "hello") (lit "again")] ≠ [] ∧
    (Clause.mk [] .nil .nil .nil .nil).Expression.asSqlComment = none ∧
    ((([NewTags (GoMap.ofList [(lit "application", lit "value")]),
      NewTags (GoMap.ofList [(lit "hello", lit "world"), (lit "application", lit "value2")]),
      NewTag (lit "hello") (lit "again")].foldl (fun c t => t.MergeClause c)
        (Clause.mk [] .nil .nil .nil .nil)).Expression.asSqlComment.map
          (fun r => sortedEntries r.Tags))
      = some [(lit "application", lit "value2"), (lit "hello", lit "again")]) ∧
    ∃ r : SqlComment,
      ([NewTags (GoMap.ofList [(lit "application", lit "value")]),
        NewTags (GoMap.ofList [(lit "hello", lit "world"), (lit "application", lit "value2")]),
        NewTag (lit "hello") (lit "again")].foldl (fun c t => t.MergeClause c)
          (Clause.mk [] .nil .nil .nil .nil)).Expression = .sqlComment r ∧
      (∀ k, k ∈ r.Tags.keys ↔
        ∃ t ∈ [NewTags (GoMap.ofList [(lit "application", lit "value")]),
          NewTags (GoMap.ofList [(lit "hello", lit "world"), (lit "application", lit "value2")]),
          NewTag (lit "hello") (lit "again")], k ∈ t.Tags.keys) ∧
      (∀ k, r.Tags.lookup k =
        [NewTags (GoMap.ofList [(lit "application", lit "value")]),
          NewTags (GoMap.ofList [(lit "hello", lit "world"), (lit "application", lit "value2")]),
          NewTag (lit "hello") (lit "again")].reverse.findSome? (fun t => t.Tags.lookup k)) :=
  ⟨List.cons_ne_nil _ _, rfl, by decide,
    chained_merge_last_wins _ _ (List.cons_ne_nil _ _) rfl⟩

theorem mergeInto_lookup (cl : Clause) (a b : SqlComment) :
    ∃ r : SqlComment, mergeInto cl a b = .sqlComment r ∧
      ∀ k, r.Tags.lookup k = (b.Tags.lookup k).or (a.Tags.lookup k) :=
  mergeClause_lookup a b { cl with Expression := .sqlComment a } rfl

theorem build_congr (s₁ s₂ : SqlComment) (h : ∀ k, s₁.Tags.lookup k = s₂.Tags.lookup k)
    (builder : Builder) : s₁.Build builder = s₂.Build builder := by
  rw [Build_eq_render, Build_eq_render, render_congr _ _ h]

/-- C11: merge is associative: merging `c` into the merge of `a` and `b`, and
merging the merge of `b` and `c` into `a`, leave `SqlComment`s with the same
key-to-value mapping, for which `Build` writes the same text. -/
theorem merge_assoc (a b c : SqlComment) (cl : Clause) :
    ∃ ab bc l r : SqlComment,
      mergeInto cl a b = .sqlComment ab ∧
      mergeInto cl b c = .sqlComment bc ∧
      mergeInto cl ab c = .sqlComment l ∧
      mergeInto cl a bc = .sqlComment r ∧
      (∀ k, l.Tags.lookup k = r.Tags.lookup k) ∧
      (∀ builder, l.Build builder = r.Build builder) := by
  obtain ⟨ab, hab, lab⟩ := mergeInto_lookup cl a b
  obtain ⟨bc, hbc, lbc⟩ := mergeInto_lookup cl b c
  obtain ⟨l, hl, ll⟩ := mergeInto_lookup cl ab c
  obtain ⟨r, hr, lr⟩ := mergeInto_lookup cl a bc
  have hk : ∀ k, l.Tags.lookup k = r.Tags.lookup k := by
    intro k
    rw [ll k, lr k, lab k, lbc k, Option.or_assoc]
  exact ⟨ab, bc, l, r, hab, hbc, hl, hr, hk, build_congr l r hk⟩

/-- C12: merging a tag set without entries (nil or empty) into a clause holding
`t` leaves a `SqlComment` with the mapping of `t`, rendered like `t`; and merging
`t` into a clause holding such a tag set does the same. -/
theorem merge_empty_identity (t e : SqlComment) (cl : Clause) (he : e.Tags.len = 0) :
    ∃ r₁ r₂ : SqlComment,
      mergeInto cl t e = .sqlComment r₁ ∧
      (∀ k, r₁.Tags.lookup k = t.Tags.lookup k) ∧
      (∀ builder, r₁.Build builder = t.Build builder) ∧
      mergeInto cl e t = .sqlComment r₂ ∧
      (∀ k, r₂.Tags.lookup k = t.Tags.lookup k) ∧
      (∀ builder, r₂.Build builder = t.Build builder) := by
  have hn := (GoMap.len_eq_zero_iff e.Tags).mp he
  obtain ⟨r₁, h₁, l₁⟩ := mergeInto_lookup cl t e
  obtain ⟨r₂, h₂, l₂⟩ := mergeInto_lookup cl e t
  have k₁ : ∀ k, r₁.Tags.lookup k = t.Tags.lookup k := fun k => by
    rw [l₁ k, hn k, Option.none_or]
  have k₂ : ∀ k, r₂.Tags.lookup k = t.Tags.lookup k := fun k => by
    rw [l₂ k, hn k, Option.or_none]
  exact ⟨r₁, r₂, h₁, k₁, build_congr r₁ t k₁, h₂, k₂, build_congr r₂ t k₂⟩

/-- C12 at the nil tag set of `NewTags(nil)` and the tags of the `SimpleTags` test. -/
theorem merge_empty_identity_witness :
    (NewTags none).Tags.len = 0 ∧
    ((mergeInto (Clause.mk [] .nil .nil .nil .nil)
        (NewTags (GoMap.ofList [(lit "application", lit "value"),
          (lit "endpoint", lit "/test/path")])) (NewTags none)).asSqlComment.map
      (fun r => r.Build []))
      = some (lit "/*application='value',endpoint='%2Ftest%2Fpath'*/") ∧
    ∃ r₁ r₂ : SqlComment,
      mergeInto (Clause.mk [] .nil .nil .nil .nil)
        (NewTags (GoMap.ofList [(lit "application", lit "value"),
          (lit "endpoint", lit "/test/path")])) (NewTags none) = .sqlComment r₁ ∧
      (∀ k, r₁.Tags.lookup k = (NewTags (GoMap.ofList [(lit "application", lit "value"),
          (lit "endpoint", lit "/test/path")])).Tags.lookup k) ∧
      (∀ builder, r₁.Build builder = (NewTags (GoMap.ofList [(lit "application", lit "value"),
          (lit "endpoint", lit "/test/path")])).Build builder) ∧
      mergeInto (Clause.mk [] .nil .nil .nil .nil) (NewTags none)
        (NewTags (GoMap.ofList [(lit "application", lit "value"),
          (lit "endpoint", lit "/test/path")])) = .sqlComment r₂ ∧
      (∀ k, r₂.Tags.lookup k = (NewTags (GoMap.ofList [(lit "application", lit "value"),
          (lit "endpoint", lit "/test/path")])).Tags.lookup k) ∧
      (∀ builder, r₂.Build builder = (NewTags (GoMap.ofList [(lit "application", lit "value"),
          (lit "endpoint", lit "/test/path")])).Build builder) :=
  ⟨rfl, by decide, merge_empty_identity _ _ _ rfl⟩

/-- C17: when the target clause holds no `SqlComment` (its expression is nil or
of another type), `b.MergeClause(clause)` stores `b` itself, with exactly the
tags of `b`; the expression held before contributes nothing. -/
theorem mergeClause_first_attachment (b : SqlComment) (c : Clause)
    (hc : c.Expression.asSqlComment = none) :
    (b.MergeClause c).Expression = .sqlComment b ∧
    (b.MergeClause c).Expression.asSqlComment = some b ∧
    ∃ r : SqlComment, (b.MergeClause c).Expression = .sqlComment r ∧
      r.Tags = b.Tags ∧ ∀ k, r.Tags.lookup k = b.Tags.lookup k := by
  have h := mergeClause_first b c hc
  exact ⟨h, by rw [h]; rfl, b, h, rfl, fun _ => rfl⟩

/-- C17 at a clause with a nil expression and at a clause holding an expression
of another type. -/
theorem mergeClause_first_attachment_witness :
    ((Clause.mk [] .nil .nil .nil .nil).Expression.asSqlComment = none ∧
      ((NewTag (lit "hello") (lit "world")).MergeClause
        (Clause.mk [] .nil .nil .nil .nil)).Expression
        = .sqlComment (NewTag (lit "hello") (lit "world"))) ∧
    ((Clause.mk [] .nil .nil .nil (.other 7)).Expression.asSqlComment = none ∧
      ((NewTag (lit "hello") (lit "world")).MergeClause
        (Clause.mk [] .nil .nil .nil (.other 7))).Expression
        = .sqlComment (NewTag (lit "hello") (lit "world"))) :=
  ⟨⟨rfl, (mergeClause_first_attachment (NewTag (lit "hello") (lit "world"))
      (Clause.mk [] .nil .nil .nil .nil) rfl).1⟩,
    ⟨rfl, (mergeClause_first_attachment (NewTag (lit "hello") (lit "world"))
      (Clause.mk [] .nil .nil .nil (.other 7)) rfl).1⟩⟩

/-! ## Claims about the constructors -/

theorem ofList_single (key value : GoString) :
    GoMap.ofList [(key, value)] = some (AList.singleton key value) := by
  simp [GoMap.ofList]

/-- C13: `NewTag(k, v)` is the tag set with the single entry `k ↦ v`, the same
as `NewTags` of the one-entry map; `Build` writes `/*escapeKey(k)='escapeKey(v)'*/`
for it, also for empty strings (`/*=''*/`); `NewTags(m)` holds the map `m` itself. -/
theorem newTag_single_entry (key value : GoString) :
    (NewTag key value).Tags.range = [(key, value)] ∧
    (∀ k, (NewTag key value).Tags.lookup k = if k = key then some value else none) ∧
    NewTag key value = NewTags (GoMap.ofList [(key, value)]) ∧
    (∀ builder : Builder, (NewTag key value).Build builder
      = builder ++ (lit "/*" ++ escapeKey key ++ lit "='" ++ escapeKey value ++ lit "'*/")) ∧
    (NewTag [] []).Build [] = lit "/*=''*/" ∧
    (∀ m : GoMap, (NewTags m).Tags = m) := by
  have hl : ∀ k, (NewTag key value).Tags.lookup k = if k = key then some value else none := by
    intro k
    unfold NewTag
    rw [ofList_single]
    simp only [GoMap.lookup, AList.lookup, AList.singleton_entries]
    by_cases hk : k = key
    · subst hk
      simp [List.dlookup_cons_eq]
    · rw [List.dlookup_cons_ne _ _ hk]
      simp [hk]
  refine ⟨?_, hl, rfl, ?_, by decide, fun _ => rfl⟩
  · unfold NewTag
    rw [ofList_single]
    simp [GoMap.range]
  · intro builder
    rw [Build_eq_render]
    have hr : render (NewTag key value).Tags
        = renderEntries [(key, value)] := by
      unfold NewTag
      rw [ofList_single]
      simp [render, GoMap.len, sortedEntries, GoMap.keys, GoMap.range, sortStrings,
        orderedInsertString, GoMap.index, GoMap.lookup, AList.lookup, List.dlookup_cons_eq]
    rw [hr]
    have h1 : lit "='" = lit "=" ++ lit "'" := by decide
    have h2 : lit "'*/" = lit "'" ++ lit "*/" := by decide
    rw [h1, h2]
    simp [renderEntries, renderEntry, List.intercalate, List.append_assoc]

/-! ## Claims about the plugin -/

theorem initialize_clauses (e : SqlCommenterPlugin) (db : DB) (kind : StatementKind) :
    ((e.Initialize db).1.Callback.processorOf kind).Clauses
      = (db.Callback.processorOf kind).Clauses ++ [GormClauseName] := by
  cases kind <;> rfl

theorem initialize_builder_self (e : SqlCommenterPlugin) (db : DB) :
    (e.Initialize db).1.ClauseBuilders GormClauseName
      = some (fun c builder =>
          match c.Expression.asSqlComment with
          | some sqlComment => sqlComment.Build builder
          | none => builder) := by
  simp [SqlCommenterPlugin.Initialize]

theorem initialize_builder_other (e : SqlCommenterPlugin) (db : DB) (name : GoString)
    (h : name ≠ GormClauseName) :
    (e.Initialize db).1.ClauseBuilders name = db.ClauseBuilders name := by
  simp [SqlCommenterPlugin.Initialize, h]

/-- C16: `Initialize` returns nil and leaves, for each of the six processors,
the previous clause list with the single name `plugin:sql-commenter` appended at
its end; that name is the one `SqlComment.Name()` returns, and under it the
builder registered by `Initialize` writes what `Build` writes. -/
theorem initialize_appends_comment_clause (e : SqlCommenterPlugin) (db : DB) :
    (e.Initialize db).2 = none ∧
    (e.Initialize db).1.Callback.Query.Clauses
      = db.Callback.Query.Clauses ++ [lit "plugin:sql-commenter"] ∧
    (e.Initialize db).1.Callback.Create.Clauses
      = db.Callback.Create.Clauses ++ [lit "plugin:sql-commenter"] ∧
    (e.Initialize db).1.Callback.Update.Clauses
      = db.Callback.Update.Clauses ++ [lit "plugin:sql-commenter"] ∧
    (e.Initialize db).1.Callback.Delete.Clauses
      = db.Callback.Delete.Clauses ++ [lit "plugin:sql-commenter"] ∧
    (e.Initialize db).1.Callback.Raw.Clauses
      = db.Callback.Raw.Clauses ++ [lit "plugin:sql-commenter"] ∧
    (e.Initialize db).1.Callback.Row.Clauses
      = db.Callback.Row.Clauses ++ [lit "plugin:sql-commenter"] ∧
    (∀ sqlComment : SqlComment, sqlComment.Name = lit "plugin:sql-commenter") ∧
    (∀ sqlComment : SqlComment, ∃ f : ClauseBuilder,
      (e.Initialize db).1.ClauseBuilders sqlComment.Name = some f ∧
      ∀ (t : SqlComment) (c : Clause) (builder : Builder),
        f { c with Expression := .sqlComment t } builder = t.Build builder) := by
  refine ⟨rfl, rfl, rfl, rfl, rfl, rfl, rfl, fun _ => rfl, ?_⟩
  intro sqlComment
  exact ⟨_, initialize_builder_self e db, fun _ _ _ => rfl⟩

theorem buildStep_flag (db : DB) (d : ClauseBuilder) (stmt : Statement)
    (cs : List GoString) (st : Builder × Bool) :
    (cs.foldl (Statement.buildStep db d stmt) st).2
      = (st.2 || cs.any (fun n => (stmt.Clauses n).isSome)) := by
  induction cs generalizing st with
  | nil => simp
  | cons n cs ih =>
    rw [List.foldl_cons, ih, List.any_cons]
    unfold Statement.buildStep
    cases hn : stmt.Clauses n with
    | none => simp
    | some c => cases hb : db.ClauseBuilders n <;> simp

theorem addClause_other (stmt : Statement) (v : SqlComment) (name : GoString)
    (h : name ≠ GormClauseName) : (stmt.AddClause v).Clauses name = stmt.Clauses name := by
  simp [Statement.AddClause, SqlComment.Name, h]

theorem buildStep_unattached (db : DB) (d : ClauseBuilder) (stmt : Statement)
    (cs : List GoString) (st : Builder × Bool)
    (h : cs.any (fun n => (stmt.Clauses n).isSome) = false) :
    cs.foldl (Statement.buildStep db d stmt) st = st := by
  induction cs generalizing st with
  | nil => rfl
  | cons n cs ih =>
    rw [List.any_cons, Bool.or_eq_false_iff] at h
    have hn : stmt.Clauses n = none := by
      cases hc : stmt.Clauses n with
      | none => rfl
      | some c => rw [hc] at h; exact absurd h.1 (by simp)
    rw [List.foldl_cons]
    have hstep : Statement.buildStep db d stmt st n = st := by
      unfold Statement.buildStep
      rw [hn]
    rw [hstep]
    exact ih st h.2

/-- When the statement build writes a non-empty text, some clause was written. -/
theorem build_written (db : DB) (d : ClauseBuilder) (stmt : Statement) (cs : List GoString)
    (h : Statement.Build db d stmt cs ≠ []) :
    (cs.foldl (Statement.buildStep db d stmt) ([], false)).2 = true := by
  rw [buildStep_flag]
  cases hany : cs.any (fun n => (stmt.Clauses n).isSome) with
  | true => rfl
  | false =>
    exfalso
    apply h
    unfold Statement.Build
    rw [buildStep_unattached db d stmt cs _ hany]

/-- After `AddClause` the clause under the plugin's name holds a `SqlComment`
that maps each key to the value attached now, else to the value carried before;
it is the attached tag set itself when the statement carried none. -/
theorem addClause_comment (stmt : Statement) (v : SqlComment) :
    ∃ (c : Clause) (r : SqlComment),
      (stmt.AddClause v).Clauses GormClauseName = some c ∧
      c.Expression.asSqlComment = some r ∧
      (∀ k, r.Tags.lookup k
        = (v.Tags.lookup k).or (stmt.comment.bind (fun a => a.Tags.lookup k))) ∧
      (stmt.comment = none → r = v) := by
  have hstore : ∀ c₀ : Clause, (stmt.Clauses GormClauseName).getD
      (Clause.mk [] .nil .nil .nil .nil) = c₀ →
      (stmt.AddClause v).Clauses GormClauseName
        = some (v.MergeClause { c₀ with Name := GormClauseName }) := by
    intro c₀ h0
    simp [Statement.AddClause, SqlComment.Name, h0]
  have hcomment : stmt.comment = ((stmt.Clauses GormClauseName).getD
      (Clause.mk [] .nil .nil .nil .nil)).Expression.asSqlComment := by
    unfold Statement.comment
    cases stmt.Clauses GormClauseName <;> rfl
  generalize hc₀ : (stmt.Clauses GormClauseName).getD (Clause.mk [] .nil .nil .nil .nil) = c₀
    at hcomment
  have hst := hstore c₀ hc₀
  cases hprev : c₀.Expression.asSqlComment with
  | none =>
    have hm := mergeClause_first v { c₀ with Name := GormClauseName } hprev
    refine ⟨_, v, hst, by rw [hm]; rfl, ?_, fun _ => rfl⟩
    intro k
    rw [hcomment, hprev]
    simp
  | some a =>
    obtain ⟨r, hr, hl⟩ := mergeClause_lookup a v { c₀ with Name := GormClauseName } hprev
    refine ⟨_, r, hst, by rw [hr]; rfl, ?_, ?_⟩
    · intro k
      rw [hcomment, hprev, hl k]
      rfl
    · intro hnone
      rw [hcomment, hprev] at hnone
      exact absurd hnone (by simp)

/-- C14: for a query, create, update or delete statement, let the SQL text built
before the plugin is installed be non-empty. After `Initialize` and the
attachment of a tag set with at least one entry (to a statement that may carry
tags attached before), the statement build writes that SQL text, one space, and
the comment `Build` writes for the tag set the statement then carries (the
attached tags merged over those carried before); the comment is not empty and
nothing follows it. -/
theorem comment_follows_sql (e : SqlCommenterPlugin) (db : DB) (defaultBuild : ClauseBuilder)
    (stmt : Statement) (tags : SqlComment) (kind : StatementKind)
    (hkind : kind = .Query ∨ kind = .Create ∨ kind = .Update ∨ kind = .Delete)
    (hfresh : GormClauseName ∉ (db.Callback.processorOf kind).Clauses)
    (hsql : Statement.Build db defaultBuild stmt (db.Callback.processorOf kind).Clauses ≠ [])
    (htags : 0 < tags.Tags.len) :
    ∃ r : SqlComment,
      (stmt.AddClause tags).comment = some r ∧
      (∀ k, r.Tags.lookup k
        = (tags.Tags.lookup k).or (stmt.comment.bind (fun a => a.Tags.lookup k))) ∧
      (stmt.comment = none → r = tags) ∧
      Statement.Build (e.Initialize db).1 defaultBuild (stmt.AddClause tags)
          ((e.Initialize db).1.Callback.processorOf kind).Clauses
        = Statement.Build db defaultBuild stmt (db.Callback.processorOf kind).Clauses
            ++ lit " " ++ r.Build [] ∧
      r.Build [] ≠ [] := by
  have _hk := hkind
  obtain ⟨c, r, hc, hexp, hl, hfirst⟩ := addClause_comment stmt tags
  have hne : r.Build [] ≠ [] := by
    intro h0
    have hz := (GoMap.len_eq_zero_iff r.Tags).mp ((build_nil_eq_nil_iff r).mp h0)
    have hz2 : ∀ k, tags.Tags.lookup k = none := by
      intro k
      have := hz k
      rw [hl k] at this
      cases ht : tags.Tags.lookup k with
      | none => rfl
      | some w => rw [ht] at this; simp at this
    have := (GoMap.len_eq_zero_iff tags.Tags).mpr hz2
    omega
  refine ⟨r, ?_, hl, hfirst, ?_, hne⟩
  · unfold Statement.comment
    rw [hc]
    exact hexp
  have hflag := build_written db defaultBuild stmt _ hsql
  rw [initialize_clauses]
  unfold Statement.Build
  rw [List.foldl_append]
  have hcongr : List.foldl (Statement.buildStep (e.Initialize db).1 defaultBuild
        (stmt.AddClause tags)) ([], false) (db.Callback.processorOf kind).Clauses
      = List.foldl (Statement.buildStep db defaultBuild stmt) ([], false)
        (db.Callback.processorOf kind).Clauses := by
    apply List.foldl_ext
    intro st n hn
    have hng : n ≠ GormClauseName := fun h => hfresh (h ▸ hn)
    unfold Statement.buildStep
    rw [addClause_other stmt tags n hng, initialize_builder_other e db n hng]
  rw [hcongr]
  generalize List.foldl (Statement.buildStep db defaultBuild stmt) ([], false)
    (db.Callback.processorOf kind).Clauses = st at hflag ⊢
  simp only [List.foldl_cons, List.foldl_nil]
  unfold Statement.buildStep
  rw [hc, initialize_builder_self]
  simp only [hflag, if_true, hexp]
  rw [Build_eq_render, Build_eq_render, List.nil_append]
  rfl

/-- C14 at the `MergeClause` test: the scan of table `test` carries the tags of
a first attachment; attaching the second tag set builds the text of the `SELECT`
and `FROM` clauses, one space and the comment of the merged tags. The
`SimpleTags` test, a single attachment, builds its comment the same way. -/
theorem comment_follows_sql_witness :
    (StatementKind.Query = .Query ∨ StatementKind.Query = .Create ∨
      StatementKind.Query = .Update ∨ StatementKind.Query = .Delete) ∧
    GormClauseName ∉ (exampleDB.Callback.processorOf .Query).Clauses ∧
    Statement.Build exampleDB exampleDefaultBuild
        (exampleStatement.AddClause (NewTags (GoMap.ofList [(lit "application", lit "value")])))
        (exampleDB.Callback.processorOf .Query).Clauses ≠ [] ∧
    0 < (NewTags (GoMap.ofList [(lit "hello", lit "world"),
      (lit "application", lit "value2")])).Tags.len ∧
    Statement.Build (New.Initialize exampleDB).1 exampleDefaultBuild
        ((exampleStatement.AddClause
          (NewTags (GoMap.ofList [(lit "application", lit "value")]))).AddClause
          (NewTags (GoMap.ofList [(lit "hello", lit "world"),
            (lit "application", lit "value2")])))
        ((New.Initialize exampleDB).1.Callback.processorOf .Query).Clauses
      = lit "SELECT * FROM `test` /*application='value2',hello='world'*/" ∧
    Statement.Build (New.Initialize exampleDB).1 exampleDefaultBuild
        (exampleStatement.AddClause (NewTags (GoMap.ofList [(lit "application", lit "value"),
          (lit "endpoint", lit "/test/path")])))
        ((New.Initialize exampleDB).1.Callback.processorOf .Query).Clauses
      = lit "SELECT * FROM `test` /*application='value',endpoint='%2Ftest%2Fpath'*/" ∧
    ∃ r : SqlComment,
      ((exampleStatement.AddClause
          (NewTags (GoMap.ofList [(lit "application", lit "value")]))).AddClause
          (NewTags (GoMap.ofList [(lit "hello", lit "world"),
            (lit "application", lit "value2")]))).comment = some r ∧
      (∀ k, r.Tags.lookup k
        = ((NewTags (GoMap.ofList [(lit "hello", lit "world"),
            (lit "application", lit "value2")])).Tags.lookup k).or
          ((exampleStatement.AddClause
            (NewTags (GoMap.ofList [(lit "application", lit "value")]))).comment.bind
              (fun a => a.Tags.lookup k))) ∧
      ((exampleStatement.AddClause
          (NewTags (GoMap.ofList [(lit "application", lit "value")]))).comment = none →
        r = NewTags (GoMap.ofList [(lit "hello", lit "world"),
          (lit "application", lit "value2")])) ∧
      Statement.Build (New.Initialize exampleDB).1 exampleDefaultBuild
          ((exampleStatement.AddClause
            (NewTags (GoMap.ofList [(lit "application", lit "value")]))).AddClause
            (NewTags (GoMap.ofList [(lit "hello", lit "world"),
              (lit "application", lit "value2")])))
          ((New.Initialize exampleDB).1.Callback.processorOf .Query).Clauses
        = Statement.Build exampleDB exampleDefaultBuild
            (exampleStatement.AddClause
              (NewTags (GoMap.ofList [(lit "application", lit "value")])))
            (exampleDB.Callback.processorOf .Query).Clauses
            ++ lit " " ++ r.Build [] ∧
      r.Build [] ≠ [] :=
  ⟨Or.inl rfl, by decide, by decide, by decide, by decide, by decide,
    comment_follows_sql New exampleDB exampleDefaultBuild
      (exampleStatement.AddClause (NewTags (GoMap.ofList [(lit "application", lit "value")])))
      (NewTags (GoMap.ofList [(lit "hello", lit "world"), (lit "application", lit "value2")]))
      .Query (Or.inl rfl) (by decide) (by decide) (by decide)⟩

/-! ## Rendering is injective -/

theorem upperhex_injective : ∀ n, n < 16 → ∀ m, m < 16 → upperhex n = upperhex m → n = m := by
  decide

theorem pctEncodeByte_cases (c : Byte) :
    (shouldEscape c = false ∧ pctEncodeByte c = [c]) ∨
    (shouldEscape c = true ∧
      pctEncodeByte c = [37, upperhex (c.val / 16), upperhex (c.val % 16)]) := by
  rw [← escapeStep_eq_pctEncodeByte]
  cases hs : shouldEscape c <;> simp

theorem pctEncode_cons (c : Byte) (s : GoString) :
    pctEncode (c :: s) = pctEncodeByte c ++ pctEncode s := by
  simp [pctEncode, List.flatMap_cons]

theorem pctEncode_injective : ∀ s₁ s₂ : GoString, pctEncode s₁ = pctEncode s₂ → s₁ = s₂
  | [], [], _ => rfl
  | [], c :: s, h => by
    rw [pctEncode_cons] at h
    rcases pctEncodeByte_cases c with ⟨_, e⟩ | ⟨_, e⟩ <;> rw [e] at h <;> simp [pctEncode] at h
  | c :: s, [], h => by
    rw [pctEncode_cons] at h
    rcases pctEncodeByte_cases c with ⟨_, e⟩ | ⟨_, e⟩ <;> rw [e] at h <;> simp [pctEncode] at h
  | c₁ :: s₁, c₂ :: s₂, h => by
    rw [pctEncode_cons, pctEncode_cons] at h
    have hpct : shouldEscape (37 : Byte) = true := by decide
    rcases pctEncodeByte_cases c₁ with ⟨k₁, e₁⟩ | ⟨k₁, e₁⟩ <;>
      rcases pctEncodeByte_cases c₂ with ⟨k₂, e₂⟩ | ⟨k₂, e₂⟩ <;>
      rw [e₁, e₂] at h
    · simp only [List.singleton_append, List.cons.injEq] at h
      rw [h.1, pctEncode_injective s₁ s₂ h.2]
    · simp only [List.singleton_append, List.cons_append, List.cons.injEq] at h
      rw [h.1, hpct] at k₁
      exact absurd k₁ (by simp)
    · simp only [List.singleton_append, List.cons_append, List.cons.injEq] at h
      rw [← h.1, hpct] at k₂
      exact absurd k₂ (by simp)
    · simp only [List.cons_append, List.nil_append, List.cons.injEq, true_and] at h
      have a₁ : c₁.val / 16 < 16 := by have := c₁.isLt; omega
      have a₂ : c₂.val / 16 < 16 := by have := c₂.isLt; omega
      have b₁ : c₁.val % 16 < 16 := Nat.mod_lt _ (by decide)
      have b₂ : c₂.val % 16 < 16 := Nat.mod_lt _ (by decide)
      have hd := upperhex_injective _ a₁ _ a₂ h.1
      have hm := upperhex_injective _ b₁ _ b₂ h.2.1
      have hc : c₁ = c₂ := Fin.ext (by omega)
      rw [hc, pctEncode_injective s₁ s₂ h.2.2]

theorem escapeKey_injective (s₁ s₂ : GoString) (h : escapeKey s₁ = escapeKey s₂) : s₁ = s₂ := by
  rw [escapeKey_eq_pctEncode, escapeKey_eq_pctEncode] at h
  exact pctEncode_injective s₁ s₂ h

theorem renderEntry_injective (kv₁ kv₂ : GoString × GoString)
    (h : renderEntry kv₁ = renderEntry kv₂) : kv₁ = kv₂ := by
  have hk : escapeKey kv₁.1 = escapeKey kv₂.1 := by
    rw [← renderEntry_key kv₁, ← renderEntry_key kv₂, h]
  unfold renderEntry at h
  rw [hk] at h
  simp only [List.append_assoc, List.append_cancel_left_eq] at h
  have hv : escapeKey kv₁.2 = escapeKey kv₂.2 := List.append_cancel_right h
  exact Prod.ext (escapeKey_injective _ _ hk) (escapeKey_injective _ _ hv)

theorem renderEntries_injective (l₁ l₂ : List (GoString × GoString))
    (h₁ : l₁ ≠ []) (h₂ : l₂ ≠ []) (h : renderEntries l₁ = renderEntries l₂) : l₁ = l₂ := by
  unfold renderEntries at h
  have hcomma : lit "," = [44] := by decide
  rw [hcomma, List.append_assoc, List.append_assoc, List.append_cancel_left_eq] at h
  have hi := List.append_cancel_right h
  have hno : ∀ l : List (GoString × GoString), ∀ x ∈ l.map renderEntry, (44 : Byte) ∉ x := by
    intro l x hx
    obtain ⟨kv, _, rfl⟩ := List.mem_map.mp hx
    exact not_mem_renderEntry kv 44 (by decide) (by decide) (by decide)
  have hs : List.splitOn (44 : Byte) ([44].intercalate (l₁.map renderEntry))
      = List.splitOn (44 : Byte) ([44].intercalate (l₂.map renderEntry)) := by rw [hi]
  rw [List.splitOn_intercalate _ (44 : Byte) (hno l₁) (by simpa using h₁),
    List.splitOn_intercalate _ (44 : Byte) (hno l₂) (by simpa using h₂)] at hs
  exact List.map_injective_iff.mpr (fun a b => renderEntry_injective a b) hs

theorem render_injective (m₁ m₂ : GoMap) (h : render m₁ = render m₂) :
    ∀ k, m₁.lookup k = m₂.lookup k := by
  have hne : ∀ m : GoMap, m.len ≠ 0 → sortedEntries m ≠ [] := by
    intro m hm e
    have := length_sortedEntries m
    rw [e] at this
    exact hm this.symm
  have hnil : ∀ m : GoMap, m.len ≠ 0 → render m ≠ [] := by
    intro m hm
    unfold render
    rw [if_neg hm]
    simp [renderEntries, lit]
  by_cases z₁ : m₁.len = 0 <;> by_cases z₂ : m₂.len = 0
  · intro k
    rw [(GoMap.len_eq_zero_iff m₁).mp z₁ k, (GoMap.len_eq_zero_iff m₂).mp z₂ k]
  · have : render m₁ = [] := by unfold render; rw [if_pos z₁]
    rw [this] at h
    exact absurd h.symm (hnil m₂ z₂)
  · have : render m₂ = [] := by unfold render; rw [if_pos z₂]
    rw [this] at h
    exact absurd h (hnil m₁ z₁)
  · unfold render at h
    rw [if_neg z₁, if_neg z₂] at h
    have he := renderEntries_injective _ _ (hne m₁ z₁) (hne m₂ z₂) h
    intro k
    cases h₁ : m₁.lookup k with
    | some v =>
      have := (mem_sortedEntries m₁ k v).mpr h₁
      rw [he] at this
      exact ((mem_sortedEntries m₂ k v).mp this).symm
    | none =>
      cases h₂ : m₂.lookup k with
      | none => rfl
      | some v =>
        have := (mem_sortedEntries m₂ k v).mpr h₂
        rw [← he] at this
        rw [(mem_sortedEntries m₁ k v).mp this] at h₁
        exact absurd h₁ (by simp)

/-- C18: rendering is injective: when `Build` writes the same text for two tag
sets, the two hold the same key-to-value mapping; so tag sets that differ in a
key or in a value, or of which one only is empty, are rendered differently. -/
theorem build_injective (t₁ t₂ : SqlComment) (builder : Builder)
    (h : t₁.Build builder = t₂.Build builder) :
    ∀ k, t₁.Tags.lookup k = t₂.Tags.lookup k := by
  rw [Build_eq_render, Build_eq_render] at h
  exact render_injective _ _ (List.append_cancel_left h)

/-! ## `MergeClause` writes only a fresh map -/

theorem store_other (heap : Heap) (p q : Nat) (key value : GoString) (h : p ≠ q) :
    (heap.store p key value)[q]? = heap[q]? := by
  unfold Heap.store
  cases hp : heap[p]? with
  | none => rfl
  | some es => exact List.getElem?_set_ne h

theorem store_self (heap : Heap) (p : Nat) (key value : GoString) (es : Entries)
    (h : heap[p]? = some es) :
    (heap.store p key value)[p]? = some (es.insert key value) := by
  unfold Heap.store
  rw [h]
  have hlt : p < heap.length := by
    obtain ⟨hl, _⟩ := List.getElem?_eq_some.mp h
    exact hl
  exact List.getElem?_set_self hlt

theorem foldl_store_other (l : List (GoString × GoString)) (heap : Heap) (p q : Nat)
    (h : p ≠ q) :
    (l.foldl (fun heap kv => heap.store p kv.1 kv.2) heap)[q]? = heap[q]? := by
  induction l generalizing heap with
  | nil => rfl
  | cons kv l ih => rw [List.foldl_cons, ih, store_other _ _ _ _ _ h]

theorem foldl_store_self (l : List (GoString × GoString)) (heap : Heap) (p : Nat)
    (es : Entries) (h : heap[p]? = some es) :
    (l.foldl (fun heap kv => heap.store p kv.1 kv.2) heap)[p]?
      = some (l.foldl (fun tags kv => tags.insert kv.1 kv.2) es) := by
  induction l generalizing heap es with
  | nil => exact h
  | cons kv l ih =>
    rw [List.foldl_cons, List.foldl_cons]
    exact ih _ _ (store_self heap p kv.1 kv.2 es h)

theorem deref_foldl_store (l : List (GoString × GoString)) (heap : Heap) (p : Nat)
    (r : MapRef) (h : ∀ q, r = some q → p ≠ q) :
    Heap.deref (l.foldl (fun heap kv => heap.store p kv.1 kv.2) heap) r = heap.deref r := by
  cases r with
  | none => rfl
  | some q => exact foldl_store_other l heap p q (h q rfl)

theorem deref_make (heap : Heap) (r : MapRef) (h : heap.valid r = true) :
    heap.make.1.deref r = heap.deref r := by
  cases r with
  | none => rfl
  | some q =>
    have hq : q < heap.length := by simpa [Heap.valid] using h
    exact List.getElem?_append_left hq

theorem valid_ne_fresh (heap : Heap) (r : MapRef) (h : heap.valid r = true) :
    ∀ q, r = some q → heap.length ≠ q := by
  intro q hq
  subst hq
  have : q < heap.length := by simpa [Heap.valid] using h
  omega

/-- C15: with map values as references into a heap, `b.MergeClause(clause)` on a
clause that holds the tag set `a` leaves every map object of the heap as it was,
so the maps of `a` and of `b` read as before; the merged tags are a new object
at an address the heap did not have; and the clause keeps its `Name`, its
`BeforeExpression`, `AfterNameExpression` and `AfterExpression`, and its `Builder`. -/
theorem mergeClause_frame (heap : Heap) (a b : SqlCommentRef) (c : ClauseRef)
    (hc : c.Expression = .sqlComment a)
    (ha : heap.valid a.Tags = true) (hb : heap.valid b.Tags = true) :
    (∀ q, q < heap.length → (b.MergeClause heap c).1[q]? = heap[q]?) ∧
    (b.MergeClause heap c).1.deref a.Tags = heap.deref a.Tags ∧
    (b.MergeClause heap c).1.deref b.Tags = heap.deref b.Tags ∧
    (b.MergeClause heap c).2.Expression = .sqlComment { Tags := some heap.length } ∧
    a.Tags ≠ some heap.length ∧ b.Tags ≠ some heap.length ∧
    (∀ k, ((b.MergeClause heap c).1.deref (some heap.length)).lookup k
      = ((heap.deref b.Tags).lookup k).or ((heap.deref a.Tags).lookup k)) ∧
    (b.MergeClause heap c).2.Name = c.Name ∧
    (b.MergeClause heap c).2.BeforeExpression = c.BeforeExpression ∧
    (b.MergeClause heap c).2.AfterNameExpression = c.AfterNameExpression ∧
    (b.MergeClause heap c).2.AfterExpression = c.AfterExpression ∧
    (b.MergeClause heap c).2.Builder = c.Builder := by
  have hca : c.Expression.asSqlComment = some a := by rw [hc]; rfl
  have hfa := valid_ne_fresh heap a.Tags ha
  have hfb := valid_ne_fresh heap b.Tags hb
  have hma : heap.make.1.deref a.Tags = heap.deref a.Tags := deref_make heap _ ha
  have hmb : heap.make.1.deref b.Tags = heap.deref b.Tags := deref_make heap _ hb
  have hfresh : heap.make.1[heap.length]? = some (∅ : Entries) :=
    List.getElem?_concat_length heap ∅
  have hmk2 : heap.make.2 = heap.length := rfl
  unfold SqlCommentRef.MergeClause
  rw [hca]
  simp only [hmk2]
  rw [hma]
  have hb1 : Heap.deref ((heap.deref a.Tags).range.foldl
      (fun h kv => h.store heap.length kv.1 kv.2) heap.make.1) b.Tags
      = heap.deref b.Tags := by
    rw [deref_foldl_store _ _ _ _ hfb, hmb]
  rw [hb1]
  refine ⟨?_, ?_, ?_, trivial, ?_, ?_, ?_, trivial, trivial, trivial, trivial, trivial⟩
  · intro q hq
    have hne : heap.length ≠ q := by omega
    rw [foldl_store_other _ _ _ _ hne, foldl_store_other _ _ _ _ hne]
    exact List.getElem?_append_left hq
  · rw [deref_foldl_store _ _ _ _ hfa, deref_foldl_store _ _ _ _ hfa, hma]
  · rw [deref_foldl_store _ _ _ _ hfb, deref_foldl_store _ _ _ _ hfb, hmb]
  · intro h
    exact hfa heap.length h rfl
  · intro h
    exact hfb heap.length h rfl
  · intro k
    have h1 := foldl_store_self (heap.deref a.Tags).range heap.make.1 heap.length ∅ hfresh
    have h2 := foldl_store_self (heap.deref b.Tags).range _ heap.length _ h1
    have hd : Heap.deref ((heap.deref b.Tags).range.foldl
        (fun h kv => h.store heap.length kv.1 kv.2) ((heap.deref a.Tags).range.foldl
          (fun h kv => h.store heap.length kv.1 kv.2) heap.make.1)) (some heap.length)
        = some ((heap.deref b.Tags).range.foldl (fun tags kv => tags.insert kv.1 kv.2)
          ((heap.deref a.Tags).range.foldl (fun tags kv => tags.insert kv.1 kv.2) ∅)) := h2
    rw [hd]
    have hsome : ∀ es : Entries, GoMap.lookup (some es) k = es.lookup k := fun _ => rfl
    rw [hsome, lookup_range_foldl_insert, lookup_range_foldl_insert, AList.lookup_empty,
      Option.or_none]

/-- C15 at the maps of the `MergeClause` test: the stored map at address 0 and
the incoming map at address 1 read as before, and the merged tags are the new
object at address 2. -/
theorem mergeClause_frame_witness :
    (ClauseRef.mk (lit "plugin:sql-commenter") .nil .nil .nil
        (.sqlComment { Tags := some 0 }) none).Expression
      = .sqlComment { Tags := some 0 } ∧
    exampleHeap.valid (some 0) = true ∧ exampleHeap.valid (some 1) = true ∧
    sortedEntries (((SqlCommentRef.mk (some 1)).MergeClause exampleHeap
        (ClauseRef.mk (lit "plugin:sql-commenter") .nil .nil .nil
          (.sqlComment { Tags := some 0 }) none)).1.deref (some 0))
      = [(lit "application", lit "value")] ∧
    sortedEntries (((SqlCommentRef.mk (some 1)).MergeClause exampleHeap
        (ClauseRef.mk (lit "plugin:sql-commenter") .nil .nil .nil
          (.sqlComment { Tags := some 0 }) none)).1.deref (some 2))
      = [(lit "application", lit "value2"), (lit "hello", lit "world")] ∧
    (∀ q, q < exampleHeap.length →
      ((SqlCommentRef.mk (some 1)).MergeClause exampleHeap
        (ClauseRef.mk (lit "plugin:sql-commenter") .nil .nil .nil
          (.sqlComment { Tags := some 0 }) none)).1[q]? = exampleHeap[q]?) :=
  ⟨rfl, by decide, by decide, by decide, by decide,
    (mergeClause_frame exampleHeap (SqlCommentRef.mk (some 0)) (SqlCommentRef.mk (some 1))
      (ClauseRef.mk (lit "plugin:sql-commenter") .nil .nil .nil
        (.sqlComment { Tags := some 0 }) none) rfl (by decide) (by decide)).1⟩

/-- C18 at the `SimpleTags` pairs given in two orders: `Build` writes the same
text for both, and the two tag sets hold the same mapping. -/
theorem build_injective_witness :
    (NewTags (GoMap.ofList [(lit "application", lit "value"),
        (lit "endpoint", lit "/test/path")])).Build []
      = (NewTags (GoMap.ofList [(lit "endpoint", lit "/test/path"),
        (lit "application", lit "value")])).Build [] ∧
    ∀ k, (NewTags (GoMap.ofList [(lit "application", lit "value"),
        (lit "endpoint", lit "/test/path")])).Tags.lookup k
      = (NewTags (GoMap.ofList [(lit "endpoint", lit "/test/path"),
        (lit "application", lit "value")])).Tags.lookup k :=
  ⟨by decide, build_injective _ _ [] (by decide)⟩

end Sqlcommenter
